import Mathlib

/-!
Verification of the PocketLlama2 firmware runtime core: the boundary-tag
heap allocator (src/firmware/libc/memory.c) and the virtual file layer
(src/firmware/libc/file.c), shallowly embedded over a byte-addressed
memory model.  Machine integers are modelled as `Nat` with explicit
reduction modulo 2^32 wherever the 32-bit C arithmetic can wrap
(`size_t`, `uint32_t` and pointer arithmetic on the RV32 target).
-/

namespace PL2

/-- 2^32, the modulus of the 32-bit machine arithmetic (`size_t`,
`uint32_t`, `uintptr_t` on the RV32 soft core). -/
def U32 : Nat := 4294967296

/-- Byte-addressed memory: each address holds one byte.  Reads mask the
cell to a byte value, so cells never written behave as arbitrary byte
garbage (the arena contents are unspecified at boot). -/
def Memory : Type := Nat → Nat

/-- A 32-bit little-endian load, as the RV32 hardware performs for a
read of a `uint32_t` field such as `block->size`. -/
def load32 (m : Memory) (a : Nat) : Nat :=
  m a % 256 + 256 * (m (a + 1) % 256) + 65536 * (m (a + 2) % 256) +
    16777216 * (m (a + 3) % 256)

/-- A 32-bit little-endian store, as the RV32 hardware performs for a
write of a `uint32_t` field; the value is truncated to 32 bits. -/
def store32 (m : Memory) (a v : Nat) : Memory := fun x =>
  if x = a then v % 256
  else if x = a + 1 then v / 256 % 256
  else if x = a + 2 then v / 65536 % 256
  else if x = a + 3 then v / 16777216 % 256
  else m x

theorem load32_lt (m : Memory) (a : Nat) : load32 m a < U32 := by
  have h0 : m a % 256 < 256 := Nat.mod_lt _ (by norm_num)
  have h1 : m (a + 1) % 256 < 256 := Nat.mod_lt _ (by norm_num)
  have h2 : m (a + 2) % 256 < 256 := Nat.mod_lt _ (by norm_num)
  have h3 : m (a + 3) % 256 < 256 := Nat.mod_lt _ (by norm_num)
  unfold load32 U32
  omega

theorem store32_apply0 (m : Memory) (a v : Nat) : store32 m a v a = v % 256 := by
  unfold store32; rw [if_pos rfl]

theorem store32_apply1 (m : Memory) (a v : Nat) :
    store32 m a v (a + 1) = v / 256 % 256 := by
  unfold store32; rw [if_neg (by omega), if_pos rfl]

theorem store32_apply2 (m : Memory) (a v : Nat) :
    store32 m a v (a + 2) = v / 65536 % 256 := by
  unfold store32; rw [if_neg (by omega), if_neg (by omega), if_pos rfl]

theorem store32_apply3 (m : Memory) (a v : Nat) :
    store32 m a v (a + 3) = v / 16777216 % 256 := by
  unfold store32; rw [if_neg (by omega), if_neg (by omega), if_neg (by omega), if_pos rfl]

@[simp] theorem load32_store32_same (m : Memory) (a v : Nat) :
    load32 (store32 m a v) a = v % U32 := by
  unfold load32
  rw [store32_apply0, store32_apply1, store32_apply2, store32_apply3]
  unfold U32
  omega

theorem store32_apply_of_outside (m : Memory) (a v x : Nat)
    (h : x < a ∨ a + 4 ≤ x) : store32 m a v x = m x := by
  unfold store32
  rw [if_neg (by omega), if_neg (by omega), if_neg (by omega), if_neg (by omega)]

theorem load32_store32_of_disjoint (m : Memory) (a v b : Nat)
    (h : a + 4 ≤ b ∨ b + 4 ≤ a) : load32 (store32 m a v) b = load32 m b := by
  unfold load32
  rw [store32_apply_of_outside m a v b (by omega),
    store32_apply_of_outside m a v (b + 1) (by omega),
    store32_apply_of_outside m a v (b + 2) (by omega),
    store32_apply_of_outside m a v (b + 3) (by omega)]

theorem load32_congr {m m' : Memory} {a : Nat}
    (h : ∀ x, a ≤ x → x < a + 4 → m' x = m x) : load32 m' a = load32 m a := by
  unfold load32
  rw [h a (by omega) (by omega), h (a + 1) (by omega) (by omega),
    h (a + 2) (by omega) (by omega), h (a + 3) (by omega) (by omega)]

/-- 32-bit pointer/`size_t` subtraction `x - y`, which wraps modulo 2^32
exactly as the C unsigned arithmetic does. -/
def sub32 (x y : Nat) : Nat := (x + (U32 - y % U32)) % U32

theorem sub32_eq (x y : Nat) (hy : y ≤ x) (hx : x < U32) : sub32 x y = x - y := by
  unfold sub32 U32 at *
  have : y % 4294967296 = y := Nat.mod_eq_of_lt (by omega)
  rw [this]
  omega

/-!
The heap allocator of src/firmware/libc/memory.c.

A block header (`block_header_t`) is 8 bytes: a `uint32_t` size field
whose bit 0 is the used flag (`BLOCK_USED`), and a `uint32_t`
`prev_size` backlink.  `BLOCK_SIZE_MASK` is `~0x3`, `MIN_BLOCK_SIZE`
is 16 and `ALIGNMENT` is 8.
-/

/-- The allocator state after `heap_init`: the global `heap_start` and
`heap_end` pointers and the byte memory. -/
structure Heap where
  heapStart : Nat
  heapEnd : Nat
  mem : Memory

/-- The C expression `size & BLOCK_SIZE_MASK` on a `uint32_t` value:
`& ~0x3` truncates to 32 bits and clears the two low bits, which on
naturals is subtraction of the remainder modulo 4. -/
def sizeMask (x : Nat) : Nat := x % U32 - x % 4

/-- The C expression `size & ~BLOCK_USED` on a `uint32_t` value:
clears bit 0. -/
def clearUsed (x : Nat) : Nat := x % U32 - x % 2

/-- The C expression `x | BLOCK_USED` on a `uint32_t` value: sets
bit 0. -/
def orUsed (x : Nat) : Nat := if x % 2 = 0 then x % U32 + 1 else x % U32

/-- memory.c `heap_init(start, size)`: align the start address up and
the size down to 8 bytes, then write a single free block spanning the
arena, with backlink 0.  (The C subtraction `size -= aligned - start`
is `size_t` arithmetic; every theorem below assumes an arena for which
it does not wrap, via bounds on the computed `heapStart`/`heapEnd`.) -/
def heap_init (m0 : Memory) (start size : Nat) : Heap :=
  let alignedStart := ((start + 7) / 8) * 8
  let size1 := size - (alignedStart - start)
  let size2 := (size1 / 8) * 8
  let m1 := store32 m0 alignedStart size2
  let m2 := store32 m1 (alignedStart + 4) 0
  ⟨alignedStart, alignedStart + size2, m2⟩

/-- memory.c `align_size(size)`: `size + sizeof(block_header_t)`
floored at `MIN_BLOCK_SIZE`, rounded up to the 8-byte alignment; all
in 32-bit `size_t` arithmetic, so it wraps for sizes within 15 of
2^32. -/
def align_size (size : Nat) : Nat :=
  let total := (size + 8) % U32
  let total := if total < 16 then 16 else total
  (((total + 7) % U32) / 8) * 8

/-- The first-fit scan loop of memory.c `malloc` (lines 60-92),
expressed with explicit fuel so that the definition is structurally
recursive and computable.  On a heap whose block sizes are nonzero the
fuel never runs out (the scan advances by at least one byte per step);
if a zero-sized block is ever encountered the C loop would spin on it
forever, and the embedding returns the failure it can never reach. -/
def mallocScanF (h : Heap) (needed : Nat) : Nat → Nat → Option Nat × Heap
  | _, 0 => (none, h)
  | a, fuel + 1 =>
    if a < h.heapEnd then
      let stored := load32 h.mem a
      let bsz := sizeMask stored
      if stored % 2 = 0 ∧ needed ≤ bsz then
        if needed + 16 ≤ bsz then
          let m1 := store32 h.mem (a + needed) (bsz - needed)
          let m2 := store32 m1 (a + needed + 4) needed
          let afterNext := a + needed + sizeMask (load32 m2 (a + needed))
          let m3 := if afterNext < h.heapEnd then
              store32 m2 (afterNext + 4) (sizeMask (load32 m2 (a + needed)))
            else m2
          let m4 := store32 m3 a (orUsed needed)
          (some (a + 8), ⟨h.heapStart, h.heapEnd, m4⟩)
        else
          (some (a + 8), ⟨h.heapStart, h.heapEnd, store32 h.mem a (orUsed stored)⟩)
      else
        if 0 < bsz then mallocScanF h needed (a + bsz) fuel
        else (none, h)
    else (none, h)

/-- memory.c `malloc(size)`: reject a zero-size request, compute the
required block size, and run the first-fit scan from `heap_start`.
A null `heap_start` (an arena based at address 0, where `heap_init`
leaves the global null) makes `malloc` refuse and return null. -/
def malloc (h : Heap) (size : Nat) : Option Nat × Heap :=
  if size = 0 ∨ h.heapStart = 0 then (none, h)
  else mallocScanF h (align_size size) h.heapStart (h.heapEnd - h.heapStart + 1)

/-- Byte-wise `memset(p, v, n)` as used by `calloc` to zero the
returned region. -/
def memsetBytes (m : Memory) (p v n : Nat) : Memory := fun x =>
  if p ≤ x ∧ x < p + n then v % 256 else m x

/-- Byte-wise `memcpy(dst, src, n)` between non-overlapping regions,
as used by `realloc` (the word-optimized loop of memory.c computes the
same bytes on disjoint regions). -/
def memcpyBytes (m : Memory) (dst src n : Nat) : Memory := fun x =>
  if dst ≤ x ∧ x < dst + n then m (src + (x - dst)) else m x

/-- memory.c `calloc(nmemb, size)`: compute `nmemb * size` in 32-bit
arithmetic, fail if the division back does not reproduce `size`
(overflow check), then `malloc` and zero the region. -/
def calloc (h : Heap) (nmemb size : Nat) : Option Nat × Heap :=
  let total := nmemb * size % U32
  if nmemb ≠ 0 ∧ total / nmemb ≠ size then (none, h)
  else
    match malloc h total with
    | (none, h') => (none, h')
    | (some p, h') => (some p, ⟨h'.heapStart, h'.heapEnd, memsetBytes h'.mem p 0 total⟩)

/-- Lines 126-143 of memory.c `free`: clear the used flag of the block
at `a`, then coalesce with the following block if that block lies
inside the arena and is free, fixing the backlink of whatever follows
the merged region.  Returns the new memory together with the local
variable `block_size`. -/
def freeClearFwd (h : Heap) (a : Nat) : Memory × Nat :=
  let m0 := store32 h.mem a (clearUsed (load32 h.mem a))
  let bsz := sizeMask (load32 m0 a)
  let next := a + bsz
  if next < h.heapEnd ∧ load32 m0 next % 2 = 0 then
    let nsz := sizeMask (load32 m0 next)
    let m1 := store32 m0 a (load32 m0 a + nsz)
    let bsz1 := bsz + nsz
    if a + bsz1 < h.heapEnd then
      (store32 m1 (a + bsz1 + 4) bsz1, bsz1)
    else (m1, bsz1)
  else (m0, bsz)

/-- Lines 145-158 of memory.c `free`: if the backlink of the block at
`a` is nonzero, locate the preceding block, and if it lies inside the
arena and is free, merge the current block into it and fix the
backlink of the block following the merged region.  `bsz` is the local
`block_size` computed by the first half. -/
def freeBwd (h : Heap) (m1 : Memory) (a bsz : Nat) : Memory :=
  let pv := load32 m1 (a + 4)
  if pv ≠ 0 then
    let pa := sub32 a pv
    if h.heapStart ≤ pa ∧ load32 m1 pa % 2 = 0 then
      let psz := sizeMask (load32 m1 pa)
      let m2 := store32 m1 pa (psz + bsz)
      if pa + sizeMask (load32 m2 pa) < h.heapEnd then
        store32 m2 (pa + sizeMask (load32 m2 pa) + 4) (sizeMask (load32 m2 pa))
      else m2
    else m1
  else m1

/-- memory.c `free(ptr)`: a null pointer or a null `heap_start` is a
no-op; the header address `ptr - 8` is computed in 32-bit pointer
arithmetic and validated against `[heap_start, heap_end)` before any
memory is touched; then the block is freed and coalesced forward and
backward. -/
def free (h : Heap) (p : Nat) : Heap :=
  if p = 0 ∨ h.heapStart = 0 then h
  else
    let a := sub32 p 8
    if a < h.heapStart ∨ h.heapEnd ≤ a then h
    else
      let r := freeClearFwd h a
      ⟨h.heapStart, h.heapEnd, freeBwd h r.1 a r.2⟩

/-- memory.c `realloc(ptr, size)`: null pointer behaves as `malloc`,
size 0 behaves as `free` returning null; if the required size still
fits in the current block the same pointer is returned unchanged;
otherwise allocate a new block, copy `min(size, oldUsable)` bytes,
free the old block, returning null (old block untouched) if the new
allocation failed. -/
def realloc (h : Heap) (p size : Nat) : Option Nat × Heap :=
  if p = 0 then malloc h size
  else if size = 0 then (none, free h p)
  else
    let a := sub32 p 8
    let current := sizeMask (load32 h.mem a) - 8
    let needed := align_size size
    if needed ≤ sizeMask (load32 h.mem a) then (some p, h)
    else
      match malloc h size with
      | (none, h') => (none, h')
      | (some np, h') =>
        let copySize := if size < current then size else current
        let h'' : Heap := ⟨h'.heapStart, h'.heapEnd, memcpyBytes h'.mem np p copySize⟩
        (some np, free h'' p)

/-- Walking the arena from `a`: repeatedly read the masked size field
and advance by it, collecting the visited block sizes.  Returns `some`
exactly when the walk lands exactly on `hEnd`; a zero size field
(where the C walk would loop forever) or overshooting `hEnd` yields
`none`.  Structured with fuel; `hEnd - a + 1` is always enough on a
well-formed arena. -/
def walkSizes (m : Memory) (hEnd : Nat) : Nat → Nat → Option (List Nat)
  | _, 0 => none
  | a, fuel + 1 =>
    if a < hEnd then
      let s := sizeMask (load32 m a)
      if 0 < s then (walkSizes m hEnd (a + s) fuel).map (fun l => s :: l)
      else none
    else if a = hEnd then some [] else none

/-!
The abstract view of the arena: the address-ordered list of blocks,
each with its total size (header included) and used flag.  `layoutSeg`
relates a block list to the bytes of a memory region, field by field,
exactly as memory.c lays headers out.
-/

/-- One block of the arena: total size in bytes (including the 8-byte
header) and the used flag. -/
structure Blk where
  size : Nat
  used : Bool
deriving DecidableEq

/-- The raw 32-bit value memory.c stores in the `size` field of a
block header: the size with bit 0 holding the used flag. -/
def storedOf (b : Blk) : Nat := b.size + (if b.used then 1 else 0)

/-- Total size of a list of blocks. -/
def sumSz (bs : List Blk) : Nat := (bs.map Blk.size).sum

/-- Size of the last block of the list, or `p` if the list is empty:
the backlink value the block placed immediately after the list must
carry. -/
def lastSz (p : Nat) : List Blk → Nat
  | [] => p
  | b :: bs => lastSz b.size bs

/-- The blocks `bs` are laid out in memory `m` from address `a` up to
exactly `a'`, the incoming backlink being `p` and the outgoing one
`p'`: each block's header stores its size-with-flag and the size of
its predecessor, and block sizes are positive multiples of 8. -/
def layoutSeg (m : Memory) : List Blk → Nat → Nat → Nat → Nat → Prop
  | [], a, p, a', p' => a' = a ∧ p' = p
  | b :: bs, a, p, a', p' =>
    load32 m a = storedOf b ∧ load32 m (a + 4) = p ∧
      0 < b.size ∧ b.size % 8 = 0 ∧ layoutSeg m bs (a + b.size) b.size a' p'

instance layoutSegDecidable (m : Memory) :
    (bs : List Blk) → (a p a' p' : Nat) → Decidable (layoutSeg m bs a p a' p')
  | [], _, _, _, _ => inferInstanceAs (Decidable (_ ∧ _))
  | b :: bs, a, p, a', p' =>
    have : Decidable (layoutSeg m bs (a + b.size) b.size a' p') :=
      layoutSegDecidable m bs (a + b.size) b.size a' p'
    inferInstanceAs (Decidable (_ ∧ _ ∧ _ ∧ _ ∧ _))

/-- No two address-adjacent blocks are both free. -/
def noAdjFree (bs : List Blk) : Prop :=
  List.Chain' (fun b c => b.used = true ∨ c.used = true) bs

instance noAdjFreeDec : (bs : List Blk) → Decidable (noAdjFree bs)
  | [] => isTrue List.chain'_nil
  | [b] => isTrue (List.chain'_singleton b)
  | b :: c :: rest =>
    have : Decidable (noAdjFree (c :: rest)) := noAdjFreeDec (c :: rest)
    decidable_of_iff ((b.used = true ∨ c.used = true) ∧ noAdjFree (c :: rest))
      (Iff.symm (@List.chain'_cons Blk (fun x y => x.used = true ∨ y.used = true)
        b c rest))

/-- The structural invariant of a live arena: sane 32-bit bounds,
8-byte aligned nonzero start (a zero `heap_start` is the C's null
global, on which `malloc` and `free` refuse to operate), and the
block list `bs` laid out wall to wall from `heap_start` to `heap_end`
with backlink 0 at the first block, with no two adjacent free
blocks. -/
structure Inv (h : Heap) (bs : List Blk) : Prop where
  endLt : h.heapEnd < U32
  startAligned : h.heapStart % 8 = 0
  startLe : h.heapStart ≤ h.heapEnd
  lay : layoutSeg h.mem bs h.heapStart 0 h.heapEnd (lastSz 0 bs)
  adj : noAdjFree bs
  startPos : h.heapStart ≠ 0

/-- The abstract effect of a successful `malloc` on the block it
selects: split it when the remainder can hold a block, otherwise use
it whole. -/
def newBlks (needed : Nat) (b : Blk) : List Blk :=
  if needed + 16 ≤ b.size then [⟨needed, true⟩, ⟨b.size - needed, false⟩]
  else [⟨b.size, true⟩]

/-- The abstract first-fit transformation of the block list performed
by `malloc` with required size `needed`: the first free block of
sufficient size is replaced by `newBlks`; if none fits the list is
unchanged. -/
def mallocBlocks (needed : Nat) : List Blk → List Blk
  | [] => []
  | b :: bs =>
    if b.used = false ∧ needed ≤ b.size then newBlks needed b ++ bs
    else b :: mallocBlocks needed bs

/-- Abstract `malloc size` on the block list (a zero size request is
rejected and changes nothing). -/
def mallocAbs (size : Nat) (bs : List Blk) : List Blk :=
  if size = 0 then bs else mallocBlocks (align_size size) bs

/-- Abstract forward coalescing at `free`: the size of the freed block
after absorbing the following block when that one is free. -/
def fwdSize (b : Blk) (post : List Blk) : Nat :=
  match post with
  | nx :: _ => if nx.used = false then b.size + nx.size else b.size
  | [] => b.size

/-- The blocks following the freed one after forward coalescing. -/
def fwdRest (post : List Blk) : List Blk :=
  match post with
  | nx :: r => if nx.used = false then r else post
  | [] => []

/-- The abstract block list after `free` of the block `b` sitting
between `pre` and `post`: coalesce forward with the head of `post`
and backward with the last of `pre` whenever those are free. -/
def freeBlocks (pre : List Blk) (b : Blk) (post : List Blk) : List Blk :=
  let s1 := fwdSize b post
  let post1 := fwdRest post
  match pre.getLast? with
  | some pv =>
    if pv.used = false then pre.dropLast ++ ⟨pv.size + s1, false⟩ :: post1
    else pre ++ ⟨s1, false⟩ :: post1
  | none => pre ++ ⟨s1, false⟩ :: post1

/-- The heap states (with their abstract block lists) reachable from a
successful `heap_init` by any sequence of `malloc` and `free` calls in
which every `malloc` size is below 2^32 - 15 (so the 32-bit required
size computation cannot wrap to 0) and every `free` argument is either
null, outside the arena, or the payload pointer of a currently
allocated block. -/
inductive Reach : Heap → List Blk → Prop where
  | init (m0 : Memory) (start size : Nat)
      (hne : (heap_init m0 start size).heapStart < (heap_init m0 start size).heapEnd)
      (hlt : (heap_init m0 start size).heapEnd < U32)
      (hne0 : (heap_init m0 start size).heapStart ≠ 0) :
      Reach (heap_init m0 start size)
        [⟨(heap_init m0 start size).heapEnd - (heap_init m0 start size).heapStart, false⟩]
  | mal {h : Heap} {bs : List Blk} (n : Nat) (hn : n < U32 - 15) (hr : Reach h bs) :
      Reach (malloc h n).2 (mallocAbs n bs)
  | fre {h : Heap} {bs : List Blk} (pre : List Blk) (b : Blk) (post : List Blk)
      (hr : Reach h bs) (hbs : bs = pre ++ b :: post) (hu : b.used = true) :
      Reach (free h (h.heapStart + sumSz pre + 8)) (freeBlocks pre b post)
  | freNop {h : Heap} {bs : List Blk} (p : Nat) (hr : Reach h bs)
      (hp : p = 0 ∨ sub32 p 8 < h.heapStart ∨ h.heapEnd ≤ sub32 p 8) :
      Reach (free h p) bs

/-!
Arithmetic facts about the bit-manipulation helpers on the values the
allocator actually stores: block sizes are positive multiples of 8,
and the stored size field is the size plus the used bit.
-/

theorem sizeMask_of_flag (s : Nat) (u : Bool) (h8 : s % 8 = 0) (hlt : s < U32) :
    sizeMask (s + if u then 1 else 0) = s := by
  unfold sizeMask U32 at *
  cases u <;> simp <;> omega

theorem clearUsed_of_flag (s : Nat) (u : Bool) (h8 : s % 8 = 0) (hlt : s < U32) :
    clearUsed (s + if u then 1 else 0) = s := by
  unfold clearUsed U32 at *
  cases u <;> simp <;> omega

theorem parity_of_flag (s : Nat) (u : Bool) (h8 : s % 8 = 0) :
    (s + if u then 1 else 0) % 2 = if u then 1 else 0 := by
  cases u <;> simp <;> omega

theorem orUsed_even (s : Nat) (h2 : s % 2 = 0) (hlt : s < U32) : orUsed s = s + 1 := by
  unfold orUsed U32 at *
  rw [if_pos h2]
  omega

theorem sizeMask_storedOf (b : Blk) (h8 : b.size % 8 = 0) (hlt : b.size < U32) :
    sizeMask (storedOf b) = b.size := sizeMask_of_flag b.size b.used h8 hlt

theorem storedOf_mod_two (b : Blk) (h8 : b.size % 8 = 0) :
    storedOf b % 2 = if b.used then 1 else 0 := parity_of_flag b.size b.used h8

@[simp] theorem sumSz_nil : sumSz [] = 0 := rfl

@[simp] theorem sumSz_cons (b : Blk) (bs : List Blk) :
    sumSz (b :: bs) = b.size + sumSz bs := by
  unfold sumSz; simp

@[simp] theorem sumSz_append (l1 l2 : List Blk) :
    sumSz (l1 ++ l2) = sumSz l1 + sumSz l2 := by
  unfold sumSz; simp

@[simp] theorem lastSz_nil (p : Nat) : lastSz p [] = p := rfl

@[simp] theorem lastSz_cons (p : Nat) (b : Blk) (bs : List Blk) :
    lastSz p (b :: bs) = lastSz b.size bs := rfl

@[simp] theorem lastSz_append (p : Nat) (l1 l2 : List Blk) :
    lastSz p (l1 ++ l2) = lastSz (lastSz p l1) l2 := by
  induction l1 generalizing p with
  | nil => rfl
  | cons b l ih => simp [ih]

theorem lastSz_getLast (p : Nat) (bs : List Blk) (pv : Blk)
    (h : bs.getLast? = some pv) : lastSz p bs = pv.size := by
  induction bs generalizing p with
  | nil => simp at h
  | cons b l ih =>
    cases l with
    | nil => simp [List.getLast?] at h; simp [h]
    | cons c l' =>
      rw [List.getLast?_cons_cons] at h
      simpa using ih b.size h

theorem getLast?_eq_none_iff (bs : List Blk) : bs.getLast? = none ↔ bs = [] := by
  cases bs with
  | nil => simp
  | cons b l => simp [List.getLast?_eq_getLast]

theorem member_size_le_sumSz (bs : List Blk) (b : Blk) (h : b ∈ bs) :
    b.size ≤ sumSz bs := by
  induction bs with
  | nil => simp at h
  | cons c l ih =>
    rcases List.mem_cons.mp h with h1 | h2
    · subst h1; simp
    · have := ih h2; simp; omega

theorem sumSz_mod8 (bs : List Blk) (h : ∀ b ∈ bs, b.size % 8 = 0) :
    sumSz bs % 8 = 0 := by
  induction bs with
  | nil => simp
  | cons b l ih =>
    have hb := h b (by simp)
    have hl := ih (fun c hc => h c (by simp [hc]))
    simp
    omega

@[simp] theorem layoutSeg_nil (m : Memory) (a p a' p' : Nat) :
    layoutSeg m [] a p a' p' ↔ a' = a ∧ p' = p := Iff.rfl

theorem layoutSeg_cons (m : Memory) (b : Blk) (bs : List Blk) (a p a' p' : Nat) :
    layoutSeg m (b :: bs) a p a' p' ↔
      load32 m a = storedOf b ∧ load32 m (a + 4) = p ∧
        0 < b.size ∧ b.size % 8 = 0 ∧ layoutSeg m bs (a + b.size) b.size a' p' := Iff.rfl

theorem layoutSeg_out {m : Memory} {bs : List Blk} {a p a' p' : Nat}
    (h : layoutSeg m bs a p a' p') : a' = a + sumSz bs ∧ p' = lastSz p bs := by
  induction bs generalizing a p with
  | nil => simpa using h
  | cons b l ih =>
    rw [layoutSeg_cons] at h
    obtain ⟨-, -, -, -, htail⟩ := h
    have := ih htail
    simp only [sumSz_cons, lastSz_cons]
    exact ⟨by omega, this.2⟩

theorem layoutSeg_sizes {m : Memory} {bs : List Blk} {a p a' p' : Nat}
    (h : layoutSeg m bs a p a' p') : ∀ b ∈ bs, 0 < b.size ∧ b.size % 8 = 0 := by
  induction bs generalizing a p with
  | nil => simp
  | cons b l ih =>
    rw [layoutSeg_cons] at h
    intro c hc
    rcases List.mem_cons.mp hc with h1 | h2
    · subst h1; exact ⟨h.2.2.1, h.2.2.2.1⟩
    · exact ih h.2.2.2.2 c h2

theorem layoutSeg_append {m : Memory} (l1 l2 : List Blk) (a p a' p' : Nat) :
    layoutSeg m (l1 ++ l2) a p a' p' ↔
      layoutSeg m l1 a p (a + sumSz l1) (lastSz p l1) ∧
        layoutSeg m l2 (a + sumSz l1) (lastSz p l1) a' p' := by
  induction l1 generalizing a p with
  | nil => simp
  | cons b l ih =>
    simp only [List.cons_append, layoutSeg_cons, ih, sumSz_cons, lastSz_cons]
    rw [show a + (b.size + sumSz l) = a + b.size + sumSz l from by omega]
    constructor
    · rintro ⟨h1, h2, h3, h4, h5, h6⟩
      exact ⟨⟨h1, h2, h3, h4, h5⟩, h6⟩
    · rintro ⟨⟨h1, h2, h3, h4, h5⟩, h6⟩
      exact ⟨h1, h2, h3, h4, h5, h6⟩

theorem layoutSeg_congr {m m' : Memory} {bs : List Blk} {a p a' p' : Nat}
    (h : layoutSeg m bs a p a' p') (hag : ∀ x, a ≤ x → x < a' → m' x = m x) :
    layoutSeg m' bs a p a' p' := by
  induction bs generalizing a p with
  | nil => simpa using h
  | cons b l ih =>
    rw [layoutSeg_cons] at h ⊢
    obtain ⟨h1, h2, h3, h4, h5⟩ := h
    have hout := layoutSeg_out h5
    have hbound : a + b.size ≤ a' := by omega
    refine ⟨?_, ?_, h3, h4, ih h5 (fun x hx1 hx2 => hag x (by omega) hx2)⟩
    · rw [load32_congr (fun x hx1 hx2 => hag x (by omega) (by omega)), h1]
    · rw [load32_congr (fun x hx1 hx2 => hag x (by omega) (by omega)), h2]

theorem sizeMask_even (s : Nat) (h8 : s % 8 = 0) (hlt : s < U32) : sizeMask s = s := by
  unfold sizeMask U32 at *
  omega

theorem align_size_spec (n : Nat) (hn : n < U32 - 15) :
    16 ≤ align_size n ∧ align_size n % 8 = 0 ∧ n + 8 ≤ align_size n := by
  simp only [align_size, U32] at *
  have h1 : (n + 8) % 4294967296 = n + 8 := Nat.mod_eq_of_lt (by omega)
  rw [h1]
  by_cases h2 : n + 8 < 16
  · rw [if_pos h2]
    norm_num
    omega
  · rw [if_neg h2]
    have h3 : (n + 8 + 7) % 4294967296 = n + 15 := Nat.mod_eq_of_lt (by omega)
    rw [h3]
    omega

theorem layoutSeg_walk {m : Memory} {bs : List Blk} {a p p' hEnd : Nat}
    (h : layoutSeg m bs a p hEnd p') (hlt : hEnd < U32) :
    ∀ fuel, bs.length < fuel → walkSizes m hEnd a fuel = some (bs.map Blk.size) := by
  induction bs generalizing a p with
  | nil =>
    intro fuel hf
    obtain ⟨rfl, -⟩ := (layoutSeg_nil m a p _ p').mp h
    match fuel, hf with
    | fuel + 1, _ => simp [walkSizes]
  | cons b l ih =>
    intro fuel hf
    rw [layoutSeg_cons] at h
    obtain ⟨h1, h2, h3, h4, h5⟩ := h
    have hout := layoutSeg_out h5
    match fuel, hf with
    | fuel + 1, hf =>
      have ha : a < hEnd := by omega
      have hblt : b.size < U32 := by omega
      unfold walkSizes
      rw [if_pos ha]
      simp only [h1]
      rw [show sizeMask (storedOf b) = b.size from
        sizeMask_storedOf b h4 hblt, if_pos h3,
        ih h5 fuel (by simpa using hf)]
      rfl

theorem mallocBlocks_cons (needed : Nat) (b : Blk) (l : List Blk) :
    mallocBlocks needed (b :: l) =
      if b.used = false ∧ needed ≤ b.size then newBlks needed b ++ l
      else b :: mallocBlocks needed l := rfl

/-- Specification of the first-fit scan of `malloc` on a suffix of a
well-formed arena: either no block of the suffix fits and both the
memory and the abstract list are unchanged, or the first fitting free
block is replaced by `newBlks` (split or whole) and the scan returns
the address just past its header, touching no byte outside the chosen
block except the backlink of the block immediately after it. -/
theorem mallocScan_spec (h : Heap) (needed : Nat) (hend : h.heapEnd < U32)
    (hn8 : needed % 8 = 0) (hn16 : 16 ≤ needed) :
    ∀ (suffix : List Blk) (fuel a p : Nat),
      layoutSeg h.mem suffix a p h.heapEnd (lastSz p suffix) →
      suffix.length < fuel →
      (mallocBlocks needed suffix = suffix ∧
        mallocScanF h needed a fuel = (none, h)) ∨
      (∃ s1 b s2 M,
        suffix = s1 ++ b :: s2 ∧ b.used = false ∧ needed ≤ b.size ∧
        mallocBlocks needed suffix = s1 ++ newBlks needed b ++ s2 ∧
        mallocScanF h needed a fuel = (some (a + sumSz s1 + 8), M) ∧
        M.heapStart = h.heapStart ∧ M.heapEnd = h.heapEnd ∧
        layoutSeg M.mem (s1 ++ newBlks needed b ++ s2) a p h.heapEnd
          (lastSz p (s1 ++ newBlks needed b ++ s2)) ∧
        (∀ x, x < a + sumSz s1 ∨
            (a + sumSz s1 + b.size ≤ x ∧
              (x < a + sumSz s1 + b.size + 4 ∨ a + sumSz s1 + b.size + 8 ≤ x)) →
          M.mem x = h.mem x)) := by
  intro suffix
  induction suffix with
  | nil =>
    intro fuel a p hlay hf
    left
    obtain ⟨rfl, -⟩ := (layoutSeg_nil h.mem a p _ _).mp hlay
    refine ⟨rfl, ?_⟩
    match fuel, hf with
    | fuel + 1, _ => simp [mallocScanF]
  | cons b l ih =>
    intro fuel a p hlay hf
    rw [layoutSeg_cons] at hlay
    obtain ⟨h1, h2, h3, h4, h5⟩ := hlay
    obtain ⟨hout, -⟩ := layoutSeg_out h5
    have hsum : h.heapEnd = a + b.size + sumSz l := hout
    have hblt : b.size < U32 := by omega
    have hU : U32 = 4294967296 := rfl
    have hstored1 : storedOf b < U32 := by
      unfold storedOf
      cases b.used <;> simp <;> omega
    have ha : a < h.heapEnd := by omega
    have hmask : sizeMask (load32 h.mem a) = b.size := by
      rw [h1]; exact sizeMask_storedOf b h4 hblt
    have hpar : load32 h.mem a % 2 = if b.used then 1 else 0 := by
      rw [h1]; exact storedOf_mod_two b h4
    match fuel, hf with
    | fuel + 1, hf =>
    by_cases hfit : b.used = false ∧ needed ≤ b.size
    · -- the scan selects this block
      right
      have hbu : b.used = false := hfit.1
      have hneed : needed ≤ b.size := hfit.2
      have hstored : load32 h.mem a = b.size := by
        rw [h1]; unfold storedOf; rw [hbu]; simp
      have hcond : load32 h.mem a % 2 = 0 ∧ needed ≤ sizeMask (load32 h.mem a) := by
        rw [hmask, hpar, hbu]; simp [hneed]
      by_cases hsplit : needed + 16 ≤ b.size
      · -- split the block
        set m1 := store32 h.mem (a + needed) (b.size - needed) with hm1
        set m2 := store32 m1 (a + needed + 4) needed with hm2
        have hrd2 : load32 m2 (a + needed) = b.size - needed := by
          rw [hm2, load32_store32_of_disjoint _ _ _ _ (by omega), hm1,
            load32_store32_same]
          exact Nat.mod_eq_of_lt (by omega)
        have hrem8 : (b.size - needed) % 8 = 0 := by omega
        have hremmask : sizeMask (load32 m2 (a + needed)) = b.size - needed := by
          rw [hrd2]; exact sizeMask_even _ hrem8 (by omega)
        have hafter : a + needed + sizeMask (load32 m2 (a + needed)) = a + b.size := by
          rw [hremmask]; omega
        have hscan : mallocScanF h needed a (fuel + 1) =
            (some (a + 8), ⟨h.heapStart, h.heapEnd,
              store32 (if a + b.size < h.heapEnd then
                  store32 m2 (a + b.size + 4) (b.size - needed)
                else m2) a (orUsed needed)⟩) := by
          simp only [mallocScanF]
          rw [if_pos ha, if_pos hcond, hmask, if_pos hsplit, ← hm1, ← hm2, hafter,
            hremmask]
        set m3 := if a + b.size < h.heapEnd then
            store32 m2 (a + b.size + 4) (b.size - needed)
          else m2 with hm3
        set m4 := store32 m3 a (orUsed needed) with hm4
        have hOr : orUsed needed = needed + 1 := orUsed_even needed (by omega) (by omega)
        have hnew : newBlks needed b = [⟨needed, true⟩, ⟨b.size - needed, false⟩] := by
          unfold newBlks; rw [if_pos hsplit]
        have hm3out : ∀ x, x < a + b.size + 4 ∨ a + b.size + 8 ≤ x → m3 x = m2 x := by
          intro x hx
          rw [hm3]
          by_cases hc : a + b.size < h.heapEnd
          · rw [if_pos hc, store32_apply_of_outside _ _ _ _ (by omega)]
          · rw [if_neg hc]
        have hL1 : load32 m4 a = needed + 1 := by
          rw [hm4, load32_store32_same, hOr]
          exact Nat.mod_eq_of_lt (by omega)
        have hL2 : load32 m4 (a + 4) = p := by
          rw [hm4, load32_store32_of_disjoint _ _ _ _ (by omega)]
          have : load32 m3 (a + 4) = load32 m2 (a + 4) :=
            load32_congr (fun x hx1 hx2 => hm3out x (by omega))
          rw [this, hm2, load32_store32_of_disjoint _ _ _ _ (by omega), hm1,
            load32_store32_of_disjoint _ _ _ _ (by omega), h2]
        have hL3 : load32 m4 (a + needed) = b.size - needed := by
          rw [hm4, load32_store32_of_disjoint _ _ _ _ (by omega)]
          have : load32 m3 (a + needed) = load32 m2 (a + needed) :=
            load32_congr (fun x hx1 hx2 => hm3out x (by omega))
          rw [this, hrd2]
        have hL4 : load32 m4 (a + needed + 4) = needed := by
          rw [hm4, load32_store32_of_disjoint _ _ _ _ (by omega)]
          have : load32 m3 (a + needed + 4) = load32 m2 (a + needed + 4) :=
            load32_congr (fun x hx1 hx2 => hm3out x (by omega))
          rw [this, hm2, load32_store32_same]
          exact Nat.mod_eq_of_lt (by omega)
        refine ⟨[], b, l, ⟨h.heapStart, h.heapEnd, m4⟩, by simp, hbu, hneed, ?_, ?_,
          rfl, rfl, ?_, ?_⟩
        · rw [mallocBlocks_cons, if_pos hfit]
          simp
        · rw [hscan]
          simp
        · -- the new layout
          simp only [hnew, List.nil_append, List.cons_append, layoutSeg_cons]
          refine ⟨by simpa [storedOf] using hL1, hL2, by omega, by omega, ?_⟩
          refine ⟨by simpa [storedOf] using hL3, hL4, by omega, by omega, ?_⟩
          rw [show a + needed + (b.size - needed) = a + b.size from by omega]
          cases l with
          | nil =>
            simp only [layoutSeg_nil]
            simp only [sumSz_nil] at hsum
            exact ⟨by omega, by simp [lastSz]⟩
          | cons c l' =>
            rw [layoutSeg_cons] at h5
            obtain ⟨t1, t2, t3, t4, t5⟩ := h5
            have hcpos : a + b.size < h.heapEnd := by
              have := (layoutSeg_out t5).1
              omega
            have hm3eq : m3 = store32 m2 (a + b.size + 4) (b.size - needed) := by
              rw [hm3, if_pos hcpos]
            have hL5 : load32 m4 (a + b.size) = storedOf c := by
              rw [hm4, load32_store32_of_disjoint _ _ _ _ (by omega), hm3eq,
                load32_store32_of_disjoint _ _ _ _ (by omega), hm2,
                load32_store32_of_disjoint _ _ _ _ (by omega), hm1,
                load32_store32_of_disjoint _ _ _ _ (by omega), t1]
            have hL6 : load32 m4 (a + b.size + 4) = b.size - needed := by
              rw [hm4, load32_store32_of_disjoint _ _ _ _ (by omega), hm3eq,
                load32_store32_same]
              exact Nat.mod_eq_of_lt (by omega)
            rw [layoutSeg_cons]
            have hc8 : 8 ≤ c.size := by omega
            refine ⟨hL5, hL6, t3, t4, ?_⟩
            refine layoutSeg_congr t5 (fun x hx1 hx2 => ?_)
            rw [hm4, store32_apply_of_outside _ _ _ _ (by omega), hm3eq,
              store32_apply_of_outside _ _ _ _ (by omega), hm2,
              store32_apply_of_outside _ _ _ _ (by omega), hm1,
              store32_apply_of_outside _ _ _ _ (by omega)]
        · -- frame: nothing outside the chosen block and the following
          -- backlink is written
          intro x hx
          simp only [sumSz_nil, Nat.add_zero] at hx
          show m4 x = h.mem x
          rw [hm4, store32_apply_of_outside _ _ _ _ (by omega),
            hm3out x (by omega), hm2,
            store32_apply_of_outside _ _ _ _ (by omega), hm1,
            store32_apply_of_outside _ _ _ _ (by omega)]
      · -- use the whole block
        have hscan : mallocScanF h needed a (fuel + 1) =
            (some (a + 8), ⟨h.heapStart, h.heapEnd,
              store32 h.mem a (orUsed (load32 h.mem a))⟩) := by
          simp only [mallocScanF]
          rw [if_pos ha, if_pos hcond, hmask, if_neg hsplit]
        set m4 := store32 h.mem a (orUsed (load32 h.mem a)) with hm4
        have hOr : orUsed (load32 h.mem a) = b.size + 1 := by
          rw [hstored]
          exact orUsed_even _ (by omega) (by omega)
        have hnew : newBlks needed b = [⟨b.size, true⟩] := by
          unfold newBlks; rw [if_neg hsplit]
        have hL1 : load32 m4 a = b.size + 1 := by
          rw [hm4, load32_store32_same, hOr]
          exact Nat.mod_eq_of_lt (by omega)
        have hL2 : load32 m4 (a + 4) = p := by
          rw [hm4, load32_store32_of_disjoint _ _ _ _ (by omega), h2]
        refine ⟨[], b, l, ⟨h.heapStart, h.heapEnd, m4⟩, by simp, hbu, hneed, ?_, ?_,
          rfl, rfl, ?_, ?_⟩
        · rw [mallocBlocks_cons, if_pos hfit]
          simp
        · rw [hscan]
          simp
        · simp only [hnew, List.nil_append, List.cons_append, layoutSeg_cons]
          refine ⟨by simpa [storedOf] using hL1, hL2, by omega, by omega, ?_⟩
          refine layoutSeg_congr h5 (fun x hx1 hx2 => ?_)
          rw [hm4, store32_apply_of_outside _ _ _ _ (by omega)]
        · intro x hx
          simp only [sumSz_nil, Nat.add_zero] at hx
          show m4 x = h.mem x
          rw [hm4, store32_apply_of_outside _ _ _ _ (by omega)]
    · -- this block is skipped: it is used or too small
      have hcondF : ¬ (load32 h.mem a % 2 = 0 ∧ needed ≤ sizeMask (load32 h.mem a)) := by
        rw [hmask, hpar]
        rintro ⟨hc1, hc2⟩
        apply hfit
        cases hb : b.used with
        | true => rw [hb] at hc1; simp at hc1
        | false => exact ⟨rfl, hc2⟩
      have hscan : mallocScanF h needed a (fuel + 1) =
          mallocScanF h needed (a + b.size) fuel := by
        simp only [mallocScanF]
        rw [if_pos ha, if_neg hcondF, hmask, if_pos h3]
      have habs : mallocBlocks needed (b :: l) = b :: mallocBlocks needed l := by
        rw [mallocBlocks_cons, if_neg hfit]
      have IH := ih fuel (a + b.size) b.size h5 (by simpa using hf)
      rcases IH with ⟨habs2, heq⟩ |
        ⟨s1, c, s2, M, hsuf, hcu, hcn, habs2, heq, hS, hE, hlay2, hframe⟩
      · left
        exact ⟨by rw [habs, habs2], by rw [hscan, heq]⟩
      · right
        refine ⟨b :: s1, c, s2, M, by rw [hsuf]; simp, hcu, hcn, ?_, ?_, hS, hE, ?_, ?_⟩
        · rw [habs, habs2]
          simp
        · rw [hscan, heq,
            show a + b.size + sumSz s1 + 8 = a + sumSz (b :: s1) + 8 from by
              simp; omega]
        · rw [show ((b :: s1) ++ newBlks needed c ++ s2) =
            b :: (s1 ++ newBlks needed c ++ s2) from by simp, layoutSeg_cons]
          refine ⟨?_, ?_, h3, h4, hlay2⟩
          · rw [load32_congr (m := h.mem)
              (fun x hx1 hx2 => hframe x (Or.inl (by omega))), h1]
          · rw [load32_congr (m := h.mem)
              (fun x hx1 hx2 => hframe x (Or.inl (by omega))), h2]
        · intro x hx
          simp only [sumSz_cons] at hx
          exact hframe x (by omega)


theorem length_le_sumSz (bs : List Blk) (h : ∀ b ∈ bs, 0 < b.size) :
    bs.length ≤ sumSz bs := by
  induction bs with
  | nil => simp
  | cons b l ih =>
    have hb := h b (by simp)
    have hl := ih (fun c hc => h c (by simp [hc]))
    simp
    omega

theorem mallocBlocks_head (needed : Nat) (l : List Blk) :
    (mallocBlocks needed l).head? = l.head? ∨
      ∃ hd, (mallocBlocks needed l).head? = some hd ∧ hd.used = true := by
  cases l with
  | nil => left; rfl
  | cons c l2 =>
    rw [mallocBlocks_cons]
    by_cases hc : c.used = false ∧ needed ≤ c.size
    · rw [if_pos hc]
      right
      unfold newBlks
      by_cases hs : needed + 16 ≤ c.size
      · rw [if_pos hs]; exact ⟨⟨needed, true⟩, rfl, rfl⟩
      · rw [if_neg hs]; exact ⟨⟨c.size, true⟩, rfl, rfl⟩
    · rw [if_neg hc]; left; rfl

theorem noAdjFree_mallocBlocks (needed : Nat) (bs : List Blk) (h : noAdjFree bs) :
    noAdjFree (mallocBlocks needed bs) := by
  unfold noAdjFree at *
  induction bs with
  | nil => exact h
  | cons b l ih =>
    rw [mallocBlocks_cons]
    by_cases hb : b.used = false ∧ needed ≤ b.size
    · rw [if_pos hb]
      have hl := (List.chain'_cons'.mp h).2
      have hhead := (List.chain'_cons'.mp h).1
      unfold newBlks
      by_cases hs : needed + 16 ≤ b.size
      · rw [if_pos hs]
        simp only [List.cons_append, List.nil_append]
        rw [List.chain'_cons]
        refine ⟨Or.inl rfl, ?_⟩
        rw [List.chain'_cons']
        refine ⟨?_, hl⟩
        intro y hy
        rcases hhead y hy with h1 | h2
        · rw [hb.1] at h1; simp at h1
        · exact Or.inr h2
      · rw [if_neg hs]
        simp only [List.cons_append, List.nil_append]
        rw [List.chain'_cons']
        exact ⟨fun y _ => Or.inl rfl, hl⟩
    · rw [if_neg hb]
      rw [List.chain'_cons'] at h ⊢
      refine ⟨?_, ih h.2⟩
      intro y hy
      rcases mallocBlocks_head needed l with heq | ⟨hd, hheq, hused⟩
      · exact h.1 y (by rw [heq] at hy; exact hy)
      · rw [hheq] at hy
        simp at hy
        subst hy
        exact Or.inr hused

theorem mallocScanF_snd_of_none (h : Heap) (needed : Nat) :
    ∀ (fuel a : Nat), (mallocScanF h needed a fuel).1 = none →
      (mallocScanF h needed a fuel).2 = h := by
  intro fuel
  induction fuel with
  | zero => intro a _; rfl
  | succ f ih =>
    intro a h0
    simp only [mallocScanF] at h0 ⊢
    by_cases h1 : a < h.heapEnd
    · rw [if_pos h1] at h0 ⊢
      by_cases h2 : load32 h.mem a % 2 = 0 ∧ needed ≤ sizeMask (load32 h.mem a)
      · rw [if_pos h2] at h0 ⊢
        by_cases h3 : needed + 16 ≤ sizeMask (load32 h.mem a)
        · rw [if_pos h3] at h0; simp at h0
        · rw [if_neg h3] at h0; simp at h0
      · rw [if_neg h2] at h0 ⊢
        by_cases h4 : 0 < sizeMask (load32 h.mem a)
        · rw [if_pos h4] at h0 ⊢
          exact ih _ h0
        · rw [if_neg h4] at h0 ⊢
    · rw [if_neg h1] at h0 ⊢

/-- `malloc` that fails changes nothing: the scan only writes in the
branch that returns a pointer. -/
theorem malloc_none (h : Heap) (n : Nat) (h0 : (malloc h n).1 = none) :
    (malloc h n).2 = h := by
  unfold malloc at *
  by_cases hg : n = 0 ∨ h.heapStart = 0
  · rw [if_pos hg]
  · rw [if_neg hg] at h0 ⊢
    exact mallocScanF_snd_of_none h _ _ _ h0

/-- Full specification of `malloc` on a well-formed arena: the
invariant is preserved with the abstract first-fit list
transformation; a failed call leaves the heap untouched; a successful
call returns the address just past the header of the first fitting
free block, and writes nothing outside that block except the backlink
of the block immediately after it. -/
theorem malloc_spec (h : Heap) (bs : List Blk) (hInv : Inv h bs) (n : Nat)
    (hn : n < U32 - 15) :
    ((malloc h n).1 = none → (malloc h n).2 = h) ∧
    Inv (malloc h n).2 (mallocAbs n bs) ∧
    (malloc h n).2.heapStart = h.heapStart ∧ (malloc h n).2.heapEnd = h.heapEnd ∧
    (∀ p, (malloc h n).1 = some p →
      ∃ s1 b s2, bs = s1 ++ b :: s2 ∧ b.used = false ∧ align_size n ≤ b.size ∧
        p = h.heapStart + sumSz s1 + 8 ∧
        mallocAbs n bs = s1 ++ newBlks (align_size n) b ++ s2 ∧
        (∀ x, x < h.heapStart + sumSz s1 ∨
            (h.heapStart + sumSz s1 + b.size ≤ x ∧
              (x < h.heapStart + sumSz s1 + b.size + 4 ∨
                h.heapStart + sumSz s1 + b.size + 8 ≤ x)) →
          (malloc h n).2.mem x = h.mem x)) := by
  by_cases hn0 : n = 0
  · subst hn0
    have hm : malloc h 0 = (none, h) := by
      unfold malloc
      rw [if_pos (Or.inl rfl)]
    have ha : mallocAbs 0 bs = bs := by unfold mallocAbs; rw [if_pos rfl]
    rw [hm, ha]
    exact ⟨fun _ => rfl, hInv, rfl, rfl, fun p hp => by simp at hp⟩
  · obtain ⟨h16, h8, hge⟩ := align_size_spec n hn
    have hmeq : malloc h n =
        mallocScanF h (align_size n) h.heapStart (h.heapEnd - h.heapStart + 1) := by
      unfold malloc
      rw [if_neg (by push_neg; exact ⟨hn0, hInv.startPos⟩)]
    have haeq : mallocAbs n bs = mallocBlocks (align_size n) bs := by
      unfold mallocAbs; rw [if_neg hn0]
    have hsum : h.heapEnd = h.heapStart + sumSz bs := (layoutSeg_out hInv.lay).1
    have hlen : bs.length < h.heapEnd - h.heapStart + 1 := by
      have h1 := length_le_sumSz bs (fun b hb => (layoutSeg_sizes hInv.lay b hb).1)
      omega
    rcases mallocScan_spec h (align_size n) hInv.endLt h8 h16 bs
        (h.heapEnd - h.heapStart + 1) h.heapStart 0 hInv.lay hlen with
      ⟨habs, heq⟩ | ⟨s1, b, s2, M, hbs, hbu, hbn, habs, heq, hS, hE, hlay, hframe⟩
    · rw [hmeq, heq, haeq, habs]
      exact ⟨fun _ => rfl, hInv, rfl, rfl, fun p hp => by simp at hp⟩
    · rw [hmeq, heq, haeq, habs]
      refine ⟨by simp, ?_, hS, hE, ?_⟩
      · exact ⟨hE ▸ hInv.endLt, hS ▸ hInv.startAligned,
          by rw [hS, hE]; exact hInv.startLe, by rw [hS, hE]; exact hlay,
          habs ▸ noAdjFree_mallocBlocks (align_size n) bs hInv.adj,
          hS ▸ hInv.startPos⟩
      · intro p hp
        simp at hp
        exact ⟨s1, b, s2, hbs, hbu, hbn, hp.symm, rfl, fun x hx => hframe x hx⟩



/-- `heap_init` establishes the invariant with a single free block
spanning the whole (aligned) arena, provided the computed arena is
nonempty and fits in the 32-bit address space. -/
theorem heap_init_inv (m0 : Memory) (start size : Nat)
    (hne : (heap_init m0 start size).heapStart < (heap_init m0 start size).heapEnd)
    (hlt : (heap_init m0 start size).heapEnd < U32)
    (hne0 : (heap_init m0 start size).heapStart ≠ 0) :
    Inv (heap_init m0 start size)
      [⟨(heap_init m0 start size).heapEnd - (heap_init m0 start size).heapStart,
        false⟩] := by
  have hU : U32 = 4294967296 := rfl
  set A := (start + 7) / 8 * 8 with hA
  set S := (size - (A - start)) / 8 * 8 with hS
  have hne2 : A < A + S := hne
  have hlt2 : A + S < U32 := hlt
  have hSpos : 0 < S := by omega
  have hSlt : S < U32 := by omega
  have hS8 : S % 8 = 0 := by omega
  have hA8 : A % 8 = 0 := by omega
  have hl1 : load32 (store32 (store32 m0 A S) (A + 4) 0) A = S := by
    rw [load32_store32_of_disjoint _ _ _ _ (by omega), load32_store32_same]
    exact Nat.mod_eq_of_lt (by omega)
  have hl2 : load32 (store32 (store32 m0 A S) (A + 4) 0) (A + 4) = 0 := by
    rw [load32_store32_same]
    simp
  have hne02 : A ≠ 0 := hne0
  refine ⟨hlt, hA8, by exact Nat.le_of_lt hne2, ?_, ?_, hne02⟩
  · show layoutSeg (store32 (store32 m0 A S) (A + 4) 0)
      [⟨A + S - A, false⟩] A 0 (A + S) (lastSz 0 [⟨A + S - A, false⟩])
    rw [layoutSeg_cons]
    have hAS : A + S - A = S := by omega
    refine ⟨?_, hl2, by simpa [hAS] using hSpos, by simpa [hAS] using hS8, ?_⟩
    · rw [hl1]
      simp [storedOf, hAS]
    · simp [hAS]
  · unfold noAdjFree
    exact List.chain'_singleton _

/-- The backward-merge amount of `free`: the size of the last block of
`pre` when that block is free, otherwise 0. -/
def backSize (pre : List Blk) : Nat :=
  match pre.getLast? with
  | some pv => if pv.used = false then pv.size else 0
  | none => 0

theorem layoutSeg_retarget {m : Memory} {bs : List Blk} {p a' a1 a2 p1 p2 : Nat}
    (h : layoutSeg m bs a1 p a' p1) (ha : a2 = a1) (he : p2 = p1) :
    layoutSeg m bs a2 p a' p2 := by
  rw [ha, he]; exact h

theorem fwdSize_nil (b : Blk) : fwdSize b [] = b.size := rfl

theorem fwdRest_nil : fwdRest [] = ([] : List Blk) := rfl

theorem fwdSize_cons (b nx : Blk) (post : List Blk) :
    fwdSize b (nx :: post) = if nx.used = false then b.size + nx.size else b.size := rfl

theorem fwdRest_cons (nx : Blk) (post : List Blk) :
    fwdRest (nx :: post) = if nx.used = false then post else nx :: post := rfl

/-- Specification of the first half of `free` (clear the used flag and
coalesce with the following block): the freed block becomes the free
block `fwdSize b post`, absorbing a free successor, and no byte
outside the freed region is written except the backlink of the block
following it. -/
theorem freeClearFwd_spec (h : Heap) (pre : List Blk) (b : Blk) (post : List Blk)
    (hend : h.heapEnd < U32)
    (hlay : layoutSeg h.mem (pre ++ b :: post) h.heapStart 0 h.heapEnd
      (lastSz 0 (pre ++ b :: post)))
    (hu : b.used = true) (a : Nat) (ha : a = h.heapStart + sumSz pre) :
    (freeClearFwd h a).2 = fwdSize b post ∧
    layoutSeg (freeClearFwd h a).1 (pre ++ ⟨fwdSize b post, false⟩ :: fwdRest post)
      h.heapStart 0 h.heapEnd
      (lastSz 0 (pre ++ ⟨fwdSize b post, false⟩ :: fwdRest post)) ∧
    (∀ x, x < a ∨ (a + fwdSize b post ≤ x ∧
        (x < a + fwdSize b post + 4 ∨ a + fwdSize b post + 8 ≤ x)) →
      (freeClearFwd h a).1 x = h.mem x) := by
  have hU : U32 = 4294967296 := rfl
  obtain ⟨hpre, hrest⟩ := (layoutSeg_append pre (b :: post) _ _ _ _).mp hlay
  rw [← ha] at hpre hrest
  rw [layoutSeg_cons] at hrest
  obtain ⟨hb1, hb2, hbpos, hb8, hpost⟩ := hrest
  have hsum := (layoutSeg_out hpost).1
  have hblt : b.size < U32 := by omega
  have hstored : load32 h.mem a = b.size + 1 := by
    rw [hb1]; simp [storedOf, hu]
  have hcl : clearUsed (load32 h.mem a) = b.size := by
    rw [hstored]
    simpa using clearUsed_of_flag b.size true hb8 hblt
  set m0 := store32 h.mem a (clearUsed (load32 h.mem a)) with hm0
  have hl0 : load32 m0 a = b.size := by
    rw [hm0, hcl, load32_store32_same]
    exact Nat.mod_eq_of_lt (by omega)
  have hmask0 : sizeMask (load32 m0 a) = b.size := by
    rw [hl0]; exact sizeMask_even _ hb8 (by omega)
  have hm0out : ∀ x, x < a ∨ a + 4 ≤ x → m0 x = h.mem x := fun x hx => by
    rw [hm0, store32_apply_of_outside _ _ _ _ hx]
  cases post with
  | nil =>
    have hEnd : h.heapEnd = a + b.size := by simpa using hsum
    have hfs : fwdSize b [] = b.size := rfl
    have hr : freeClearFwd h a = (m0, b.size) := by
      simp only [freeClearFwd]
      rw [← hm0, hmask0, if_neg (by simp [← hEnd])]
    rw [hr, hfs]
    refine ⟨rfl, ?_, ?_⟩
    · show layoutSeg m0 (pre ++ [⟨b.size, false⟩]) _ _ _ _
      rw [layoutSeg_append, ← ha]
      refine ⟨layoutSeg_congr hpre (fun x hx1 hx2 => hm0out x (by omega)), ?_⟩
      rw [layoutSeg_cons]
      refine ⟨by rw [hl0]; simp [storedOf], ?_, by simpa using hbpos,
        by simpa using hb8, ?_⟩
      · rw [load32_congr (fun x hx1 hx2 => hm0out x (by omega)), hb2]
      · simp [fwdRest_nil]
        omega
    · intro x hx
      exact hm0out x (by omega)
  | cons nx post2 =>
    rw [layoutSeg_cons] at hpost
    obtain ⟨hn1, hn2, hnpos, hn8, hpost2⟩ := hpost
    have hsum2 := (layoutSeg_out hpost2).1
    have hnext : a + b.size < h.heapEnd := by omega
    have hnlt : nx.size < U32 := by omega
    have hnload : load32 m0 (a + b.size) = storedOf nx := by
      rw [hm0, load32_store32_of_disjoint _ _ _ _ (by omega), hn1]
    cases hnu : nx.used with
    | true =>
      -- the next block is used: no forward merge
      have hfs : fwdSize b (nx :: post2) = b.size := by
        rw [fwdSize_cons, hnu]; simp
      have hfr : fwdRest (nx :: post2) = nx :: post2 := by
        rw [fwdRest_cons, hnu]; simp
      have hr : freeClearFwd h a = (m0, b.size) := by
        simp only [freeClearFwd]
        rw [← hm0, hmask0, if_neg ?_]
        rintro ⟨-, hpar⟩
        rw [hnload, storedOf_mod_two nx hn8, hnu] at hpar
        simp at hpar
      rw [hr, hfs, hfr]
      refine ⟨rfl, ?_, ?_⟩
      · show layoutSeg m0 (pre ++ ⟨b.size, false⟩ :: nx :: post2) _ _ _ _
        rw [layoutSeg_append, ← ha]
        refine ⟨layoutSeg_congr hpre (fun x hx1 hx2 => hm0out x (by omega)), ?_⟩
        simp only [layoutSeg_cons]
        refine ⟨by rw [hl0]; simp [storedOf], ?_, by simpa using hbpos,
          by simpa using hb8, ?_⟩
        · rw [load32_congr (fun x hx1 hx2 => hm0out x (by omega)), hb2]
        · refine ⟨by rw [hm0, load32_store32_of_disjoint _ _ _ _ (by omega)]; exact hn1,
            by rw [hm0, load32_store32_of_disjoint _ _ _ _ (by omega)]; exact hn2,
            hnpos, hn8, ?_⟩
          exact layoutSeg_congr
            (layoutSeg_retarget hpost2 rfl (by simp [lastSz_append]))
            (fun x hx1 hx2 => hm0out x (by omega))
      · intro x hx
        exact hm0out x (by omega)
    | false =>
      -- the next block is free: forward merge
      have hnmask : sizeMask (load32 m0 (a + b.size)) = nx.size := by
        rw [hnload]; exact sizeMask_storedOf nx hn8 hnlt
      have hnpar : load32 m0 (a + b.size) % 2 = 0 := by
        rw [hnload, storedOf_mod_two nx hn8, hnu]
        simp
      have hfs : fwdSize b (nx :: post2) = b.size + nx.size := by
        rw [fwdSize_cons, hnu]; simp
      have hfr : fwdRest (nx :: post2) = post2 := by
        rw [fwdRest_cons, hnu]; simp
      set m1 := store32 m0 a (load32 m0 a + sizeMask (load32 m0 (a + b.size)))
        with hm1
      have hm1v : m1 = store32 m0 a (b.size + nx.size) := by
        rw [hm1, hl0, hnmask]
      have hl1 : load32 m1 a = b.size + nx.size := by
        rw [hm1v, load32_store32_same]
        exact Nat.mod_eq_of_lt (by omega)
      have hm1out : ∀ x, x < a ∨ a + 4 ≤ x → m1 x = h.mem x := fun x hx => by
        rw [hm1v, store32_apply_of_outside _ _ _ _ hx]
        exact hm0out x hx
      rw [hfs, hfr]
      cases post2 with
      | nil =>
        have hEnd : h.heapEnd = a + b.size + nx.size := by simpa using hsum2
        have hr : freeClearFwd h a = (m1, b.size + nx.size) := by
          simp only [freeClearFwd]
          rw [← hm0, hmask0, if_pos ⟨hnext, hnpar⟩, hnmask, hl0, ← hm1v,
            if_neg (by omega)]
        rw [hr]
        refine ⟨rfl, ?_, ?_⟩
        · show layoutSeg m1 (pre ++ [⟨b.size + nx.size, false⟩]) _ _ _ _
          rw [layoutSeg_append, ← ha]
          refine ⟨layoutSeg_congr hpre (fun x hx1 hx2 => hm1out x (by omega)), ?_⟩
          simp only [layoutSeg_cons]
          refine ⟨by rw [hl1]; simp [storedOf], ?_, by omega, by omega, ?_⟩
          · rw [load32_congr (fun x hx1 hx2 => hm1out x (by omega)), hb2]
          · simp only [layoutSeg_nil]
            constructor
            · omega
            · simp [lastSz_append]
        · intro x hx
          exact hm1out x (by omega)
      | cons c2 post3 =>
        rw [layoutSeg_cons] at hpost2
        obtain ⟨hc1, hc2, hcpos, hc8, hpost3⟩ := hpost2
        have hsum3 := (layoutSeg_out hpost3).1
        have hlt2 : a + (b.size + nx.size) < h.heapEnd := by omega
        set m2 := store32 m1 (a + (b.size + nx.size) + 4) (b.size + nx.size)
          with hm2
        have hr : freeClearFwd h a = (m2, b.size + nx.size) := by
          simp only [freeClearFwd]
          rw [← hm0, hmask0, if_pos ⟨hnext, hnpar⟩, hnmask, hl0, ← hm1v,
            if_pos hlt2, ← hm2]
        have hm2out : ∀ x, x < a ∨ (a + (b.size + nx.size) ≤ x ∧
            (x < a + (b.size + nx.size) + 4 ∨ a + (b.size + nx.size) + 8 ≤ x)) →
            m2 x = h.mem x := fun x hx => by
          rw [hm2, store32_apply_of_outside _ _ _ _ (by omega)]
          exact hm1out x (by omega)
        rw [hr]
        refine ⟨rfl, ?_, ?_⟩
        · show layoutSeg m2 (pre ++ ⟨b.size + nx.size, false⟩ :: c2 :: post3) _ _ _ _
          rw [layoutSeg_append, ← ha]
          refine ⟨layoutSeg_congr hpre (fun x hx1 hx2 => hm2out x (by omega)), ?_⟩
          simp only [layoutSeg_cons]
          refine ⟨?_, ?_, by omega, by omega, ?_⟩
          · rw [hm2, load32_store32_of_disjoint _ _ _ _ (by omega), hl1]
            simp [storedOf]
          · rw [hm2, load32_store32_of_disjoint _ _ _ _ (by omega), hm1v,
              load32_store32_of_disjoint _ _ _ _ (by omega), hm0,
              load32_store32_of_disjoint _ _ _ _ (by omega), hb2]
          · have hcload : load32 m2 (a + (b.size + nx.size)) = storedOf c2 := by
              rw [hm2, load32_store32_of_disjoint _ _ _ _ (by omega), hm1v,
                load32_store32_of_disjoint _ _ _ _ (by omega), hm0,
                load32_store32_of_disjoint _ _ _ _ (by omega)]
              rw [show a + (b.size + nx.size) = a + b.size + nx.size from by omega]
              exact hc1
            have hcprev : load32 m2 (a + (b.size + nx.size) + 4) =
                b.size + nx.size := by
              rw [hm2, load32_store32_same]
              exact Nat.mod_eq_of_lt (by omega)
            refine ⟨hcload, hcprev, hcpos, hc8, ?_⟩
            refine layoutSeg_congr
              (layoutSeg_retarget hpost3 (by omega) (by simp [lastSz_append]))
              (fun x hx1 hx2 => ?_)
            rw [show a + (b.size + nx.size) + c2.size = a + b.size + nx.size + c2.size
              from by omega] at hx1
            exact hm2out x (by omega)
        · intro x hx
          exact hm2out x (by omega)


/-- The abstract result of the backward-coalescing half of `free`:
merge the (free) block `c` into the last block of `pre` when that one
is free. -/
def bwdBlocks (pre : List Blk) (c : Blk) (post1 : List Blk) : List Blk :=
  match pre.getLast? with
  | some pv =>
    if pv.used = false then pre.dropLast ++ ⟨pv.size + c.size, false⟩ :: post1
    else pre ++ c :: post1
  | none => pre ++ c :: post1

theorem freeBlocks_eq_bwd (pre : List Blk) (b : Blk) (post : List Blk) :
    freeBlocks pre b post = bwdBlocks pre ⟨fwdSize b post, false⟩ (fwdRest post) := by
  unfold freeBlocks bwdBlocks
  cases pre.getLast? with
  | none => rfl
  | some pv => rfl

theorem bwdBlocks_nil (c : Blk) (post1 : List Blk) :
    bwdBlocks [] c post1 = c :: post1 := rfl

theorem bwdBlocks_concat (pre2 : List Blk) (pv c : Blk) (post1 : List Blk) :
    bwdBlocks (pre2 ++ [pv]) c post1 =
      if pv.used = false then pre2 ++ ⟨pv.size + c.size, false⟩ :: post1
      else (pre2 ++ [pv]) ++ c :: post1 := by
  unfold bwdBlocks
  rw [List.getLast?_concat, List.dropLast_concat]

theorem backSize_nil : backSize [] = 0 := rfl

theorem backSize_concat (pre2 : List Blk) (pv : Blk) :
    backSize (pre2 ++ [pv]) = if pv.used = false then pv.size else 0 := by
  unfold backSize
  rw [List.getLast?_concat]

/-- Specification of the second half of `free` (backward coalescing):
the free block `c` at `a` is merged into the preceding block when that
block is free, and nothing is written outside the merged region except
the backlink of the block following it. -/
theorem freeBwd_spec (h : Heap) (pre : List Blk) (c : Blk) (post1 : List Blk)
    (hend : h.heapEnd < U32) (m1 : Memory)
    (hlay : layoutSeg m1 (pre ++ c :: post1) h.heapStart 0 h.heapEnd
      (lastSz 0 (pre ++ c :: post1)))
    (hcu : c.used = false) (a : Nat) (ha : a = h.heapStart + sumSz pre) :
    layoutSeg (freeBwd h m1 a c.size) (bwdBlocks pre c post1) h.heapStart 0
      h.heapEnd (lastSz 0 (bwdBlocks pre c post1)) ∧
    (∀ x, x < a - backSize pre ∨ (a + c.size ≤ x ∧
        (x < a + c.size + 4 ∨ a + c.size + 8 ≤ x)) →
      freeBwd h m1 a c.size x = m1 x) := by
  have hU : U32 = 4294967296 := rfl
  rcases List.eq_nil_or_concat' pre with rfl | ⟨pre2, pv, rfl⟩
  · -- first block of the arena: backlink 0, no backward merge
    simp only [List.nil_append, sumSz_nil, Nat.add_zero] at hlay ha
    subst ha
    have h0 := hlay
    rw [layoutSeg_cons] at h0
    obtain ⟨hc1, hc2, hcpos, hc8, hpost⟩ := h0
    have hr : freeBwd h m1 h.heapStart c.size = m1 := by
      simp only [freeBwd]
      rw [hc2, if_neg (by simp)]
    rw [hr, bwdBlocks_nil, backSize_nil]
    exact ⟨hlay, fun x _ => rfl⟩
  · -- the arena has a block before `c`
    rw [List.append_assoc] at hlay
    simp only [List.singleton_append] at hlay
    obtain ⟨hpre2, hrest⟩ := (layoutSeg_append pre2 (pv :: c :: post1) _ _ _ _).mp hlay
    set P := h.heapStart + sumSz pre2 with hP
    rw [layoutSeg_cons] at hrest
    obtain ⟨hpv1, hpv2, hpvpos, hpv8, hrest2⟩ := hrest
    rw [layoutSeg_cons] at hrest2
    obtain ⟨hc1, hc2, hcpos, hc8, hpost1⟩ := hrest2
    have haddr : a = P + pv.size := by
      rw [ha, hP]
      simp
      omega
    have hsum1 := (layoutSeg_out hpost1).1
    have hpvlt : pv.size < U32 := by omega
    have hclt : c.size < U32 := by omega
    have halt : a < U32 := by omega
    have hpvload : load32 m1 (a + 4) = pv.size := by
      rw [haddr]
      exact hc2
    have hpa : sub32 a pv.size = P := by
      rw [sub32_eq a pv.size (by omega) halt, haddr]
      omega
    cases hpvu : pv.used with
    | true =>
      -- previous block used: no merge
      have hr : freeBwd h m1 a c.size = m1 := by
        simp only [freeBwd]
        rw [hpvload, if_pos (by omega), hpa, if_neg ?_]
        rintro ⟨-, hpar⟩
        rw [hpv1, storedOf_mod_two pv hpv8, hpvu] at hpar
        simp at hpar
      have hb : bwdBlocks (pre2 ++ [pv]) c post1 = (pre2 ++ [pv]) ++ c :: post1 := by
        rw [bwdBlocks_concat, hpvu]
        simp
      rw [hr, hb, List.append_assoc]
      simp only [List.singleton_append]
      refine ⟨hlay, fun x _ => trivial⟩
    | false =>
      -- previous block free: backward merge
      have hpvpar : load32 m1 P % 2 = 0 := by
        rw [hpv1, storedOf_mod_two pv hpv8, hpvu]
        simp
      have hpvmask : sizeMask (load32 m1 P) = pv.size := by
        rw [hpv1]
        exact sizeMask_storedOf pv hpv8 hpvlt
      set m2 := store32 m1 P (pv.size + c.size) with hm2
      have hl2 : load32 m2 P = pv.size + c.size := by
        rw [hm2, load32_store32_same]
        exact Nat.mod_eq_of_lt (by omega)
      have hmask2 : sizeMask (load32 m2 P) = pv.size + c.size := by
        rw [hl2]
        exact sizeMask_even _ (by omega) (by omega)
      have hafter : P + (pv.size + c.size) = a + c.size := by omega
      have hb : bwdBlocks (pre2 ++ [pv]) c post1 =
          pre2 ++ ⟨pv.size + c.size, false⟩ :: post1 := by
        rw [bwdBlocks_concat, hpvu]
        simp
      have hback : backSize (pre2 ++ [pv]) = pv.size := by
        rw [backSize_concat, hpvu]
        simp
      have hm2out : ∀ x, x < P ∨ P + 4 ≤ x → m2 x = m1 x := fun x hx => by
        rw [hm2, store32_apply_of_outside _ _ _ _ hx]
      rw [hb, hback]
      cases post1 with
      | nil =>
        have hEnd : h.heapEnd = a + c.size := by
          simp only [sumSz_nil, Nat.add_zero] at hsum1
          omega
        have hr : freeBwd h m1 a c.size = m2 := by
          simp only [freeBwd]
          rw [hpvload, if_pos (by omega), hpa, if_pos ⟨by omega, hpvpar⟩,
            hpvmask, ← hm2, hmask2, hafter, if_neg (by omega)]
        rw [hr]
        constructor
        · rw [layoutSeg_append, ← hP]
          refine ⟨layoutSeg_congr hpre2 (fun x hx1 hx2 => hm2out x (by omega)), ?_⟩
          simp only [layoutSeg_cons]
          refine ⟨by rw [hl2]; simp [storedOf], ?_, by omega, by omega, ?_⟩
          · rw [hm2, load32_store32_of_disjoint _ _ _ _ (by omega), hpv2]
          · simp only [layoutSeg_nil]
            constructor
            · omega
            · simp [lastSz_append]
        · intro x hx
          exact hm2out x (by omega)
      | cons c2 post2 =>
        rw [layoutSeg_cons] at hpost1
        obtain ⟨hd1, hd2, hdpos, hd8, hpost2⟩ := hpost1
        have hsum2 := (layoutSeg_out hpost2).1
        have hlt2 : a + c.size < h.heapEnd := by omega
        set m3 := store32 m2 (a + c.size + 4) (pv.size + c.size) with hm3
        have hr : freeBwd h m1 a c.size = m3 := by
          simp only [freeBwd]
          rw [hpvload, if_pos (by omega), hpa, if_pos ⟨by omega, hpvpar⟩,
            hpvmask, ← hm2, hmask2, hafter, if_pos hlt2, ← hm3]
        have hm3out : ∀ x, x < P ∨ (a + c.size ≤ x ∧
            (x < a + c.size + 4 ∨ a + c.size + 8 ≤ x)) → m3 x = m1 x := fun x hx => by
          rw [hm3, store32_apply_of_outside _ _ _ _ (by omega)]
          exact hm2out x (by omega)
        rw [hr]
        constructor
        · rw [layoutSeg_append, ← hP]
          refine ⟨layoutSeg_congr hpre2 (fun x hx1 hx2 => hm3out x (by omega)), ?_⟩
          simp only [layoutSeg_cons]
          refine ⟨?_, ?_, by omega, by omega, ?_⟩
          · rw [hm3, load32_store32_of_disjoint _ _ _ _ (by omega), hl2]
            simp [storedOf]
          · rw [hm3, load32_store32_of_disjoint _ _ _ _ (by omega), hm2,
              load32_store32_of_disjoint _ _ _ _ (by omega), hpv2]
          · have hload2 : load32 m3 (P + (pv.size + c.size)) = storedOf c2 := by
              rw [hafter, hm3, load32_store32_of_disjoint _ _ _ _ (by omega), hm2,
                load32_store32_of_disjoint _ _ _ _ (by omega),
                show a + c.size = P + pv.size + c.size from by omega]
              exact hd1
            have hprev2 : load32 m3 (P + (pv.size + c.size) + 4) =
                pv.size + c.size := by
              rw [hafter, hm3, load32_store32_same]
              exact Nat.mod_eq_of_lt (by omega)
            refine ⟨hload2, hprev2, hdpos, hd8, ?_⟩
            refine layoutSeg_congr
              (layoutSeg_retarget hpost2 (by omega) (by simp [lastSz_append]))
              (fun x hx1 hx2 => ?_)
            exact hm3out x (by omega)
        · intro x hx
          exact hm3out x (by omega)


theorem fwd_post_facts (b : Blk) (post : List Blk) (h : noAdjFree (b :: post)) :
    noAdjFree (fwdRest post) ∧ (∀ y ∈ (fwdRest post).head?, y.used = true) := by
  unfold noAdjFree at *
  cases post with
  | nil =>
    rw [fwdRest_nil]
    exact ⟨List.chain'_nil, by simp⟩
  | cons nx r =>
    have h1 := (List.chain'_cons'.mp h).2
    rw [fwdRest_cons]
    cases hnx : nx.used with
    | true =>
      rw [if_neg (by simp)]
      refine ⟨h1, ?_⟩
      intro y hy
      simp at hy
      rw [← hy]
      exact hnx
    | false =>
      rw [if_pos rfl]
      refine ⟨(List.chain'_cons'.mp h1).2, ?_⟩
      intro y hy
      rcases (List.chain'_cons'.mp h1).1 y hy with h2 | h2
      · rw [hnx] at h2; simp at h2
      · exact h2

theorem noAdjFree_freeBlocks (pre : List Blk) (b : Blk) (post : List Blk)
    (hadj : noAdjFree (pre ++ b :: post)) : noAdjFree (freeBlocks pre b post) := by
  rw [freeBlocks_eq_bwd]
  unfold noAdjFree at *
  obtain ⟨hpre, hpost, hjun⟩ := List.chain'_append.mp hadj
  obtain ⟨hr1, hr2⟩ := fwd_post_facts b post hpost
  unfold noAdjFree at hr1
  have hmid : ∀ s : Nat, List.Chain' (fun x y => x.used = true ∨ y.used = true)
      (⟨s, false⟩ :: fwdRest post) := by
    intro s
    rw [List.chain'_cons']
    exact ⟨fun y hy => Or.inr (hr2 y hy), hr1⟩
  rcases List.eq_nil_or_concat' pre with rfl | ⟨pre2, pv, rfl⟩
  · rw [bwdBlocks_nil]
    exact hmid _
  · rw [bwdBlocks_concat]
    have hjun2 := hjun pv (by simp [List.getLast?_concat])
    obtain ⟨hpre2, hpv, hjun3⟩ := List.chain'_append.mp hpre
    cases hpvu : pv.used with
    | true =>
      rw [if_neg (by simp)]
      rw [List.append_assoc]
      simp only [List.singleton_append]
      rw [List.chain'_append]
      refine ⟨hpre2, ?_, ?_⟩
      · rw [List.chain'_cons']
        refine ⟨?_, hmid _⟩
        intro y hy
        simp at hy
        rw [← hy]
        exact Or.inl hpvu
      · intro x hx y hy
        simp at hy
        rw [← hy]
        exact Or.inr hpvu
    | false =>
      rw [if_pos rfl]
      rw [List.chain'_append]
      refine ⟨hpre2, hmid _, ?_⟩
      intro x hx y hy
      simp at hy
      rcases hjun3 x hx pv (by simp) with h2 | h2
      · rw [← hy]
        exact Or.inl h2
      · rw [hpvu] at h2
        simp at h2

/-- `free` of a null pointer or of a pointer whose computed header
address lies outside `[heap_start, heap_end)` is a no-op: validation
happens before any read or write of the pointed-to memory, and the
heap is returned unchanged. -/
theorem free_nop (h : Heap) (p : Nat)
    (hp : p = 0 ∨ sub32 p 8 < h.heapStart ∨ h.heapEnd ≤ sub32 p 8) :
    free h p = h := by
  unfold free
  by_cases hg : p = 0 ∨ h.heapStart = 0
  · rw [if_pos hg]
  · have hp2 : sub32 p 8 < h.heapStart ∨ h.heapEnd ≤ sub32 p 8 := by
      rcases hp with hp | hp
      · exact absurd (Or.inl hp) hg
      · exact hp
    rw [if_neg hg, if_pos hp2]

/-- Full specification of `free` on the payload pointer of an
allocated block of a well-formed arena: the block is freed and merged
with its free neighbours, the invariant holds for the coalesced list,
and nothing is written outside the merged region except the backlink
of the block immediately following it. -/
theorem free_spec (h : Heap) (bs : List Blk) (hInv : Inv h bs) (pre : List Blk)
    (b : Blk) (post : List Blk) (hbs : bs = pre ++ b :: post) (hu : b.used = true)
    (a : Nat) (ha : a = h.heapStart + sumSz pre) :
    (free h (a + 8)).heapStart = h.heapStart ∧
    (free h (a + 8)).heapEnd = h.heapEnd ∧
    Inv (free h (a + 8)) (freeBlocks pre b post) ∧
    (∀ x, x < a - backSize pre ∨ (a + fwdSize b post ≤ x ∧
        (x < a + fwdSize b post + 4 ∨ a + fwdSize b post + 8 ≤ x)) →
      (free h (a + 8)).mem x = h.mem x) := by
  have hU : U32 = 4294967296 := rfl
  subst hbs
  have hlay := hInv.lay
  have hend := hInv.endLt
  have hout := (layoutSeg_out hlay).1
  have hbpos : 0 < b.size := (layoutSeg_sizes hlay b (by simp)).1
  have hb8 : b.size % 8 = 0 := (layoutSeg_sizes hlay b (by simp)).2
  have hsumdec : h.heapEnd = h.heapStart + sumSz pre + b.size + sumSz post := by
    rw [hout]
    simp
    omega
  have halt : a + 8 ≤ h.heapEnd := by omega
  have hsub : sub32 (a + 8) 8 = a := by
    rw [sub32_eq (a + 8) 8 (by omega) (by omega)]
    omega
  have hfr : free h (a + 8) =
      ⟨h.heapStart, h.heapEnd,
        freeBwd h (freeClearFwd h a).1 a (freeClearFwd h a).2⟩ := by
    have hg1 : ¬(a + 8 = 0 ∨ h.heapStart = 0) := by
      push_neg
      exact ⟨by omega, hInv.startPos⟩
    unfold free
    rw [if_neg hg1, hsub, if_neg (by omega)]
  obtain ⟨hr2, hlay1, hframe1⟩ :=
    freeClearFwd_spec h pre b post hend hlay hu a ha
  have hbwd := freeBwd_spec h pre ⟨fwdSize b post, false⟩ (fwdRest post) hend
    (freeClearFwd h a).1 hlay1 rfl a ha
  rw [hfr]
  rw [hr2]
  refine ⟨rfl, rfl, ?_, ?_⟩
  · refine ⟨hend, hInv.startAligned, hInv.startLe, ?_, ?_, hInv.startPos⟩
    · show layoutSeg (freeBwd h (freeClearFwd h a).1 a (fwdSize b post))
        (freeBlocks pre b post) h.heapStart 0 h.heapEnd
        (lastSz 0 (freeBlocks pre b post))
      rw [freeBlocks_eq_bwd]
      exact hbwd.1
    · exact noAdjFree_freeBlocks pre b post hInv.adj
  · intro x hx
    show freeBwd h (freeClearFwd h a).1 a (fwdSize b post) x = h.mem x
    rw [hbwd.2 x (by exact hx), hframe1 x (by omega)]

/-- Every state reachable by valid `malloc`/`free` usage after a
successful `heap_init` satisfies the arena invariant. -/
theorem Reach_inv {h : Heap} {bs : List Blk} (hr : Reach h bs) : Inv h bs := by
  induction hr with
  | init m0 start size hne hlt hne0 => exact heap_init_inv m0 start size hne hlt hne0
  | mal n hn _ ih => exact (malloc_spec _ _ ih n hn).2.1
  | fre pre b post _ hbs hu ih => exact (free_spec _ _ ih pre b post hbs hu _ rfl).2.2.1
  | freNop p _ hp ih =>
    rw [free_nop _ _ hp]
    exact ih


theorem adj_neighbors (s1 : List Blk) (b : Blk) (s2 : List Blk)
    (hadj : noAdjFree (s1 ++ b :: s2)) (hbu : b.used = false) :
    (∀ pv ∈ s1.getLast?, pv.used = true) ∧ (∀ c ∈ s2.head?, c.used = true) := by
  unfold noAdjFree at hadj
  obtain ⟨h1, h2, h3⟩ := List.chain'_append.mp hadj
  constructor
  · intro pv hpv
    rcases h3 pv hpv b (by simp) with h4 | h4
    · exact h4
    · rw [hbu] at h4
      simp at h4
  · intro c hc
    rcases (List.chain'_cons'.mp h2).1 c hc with h4 | h4
    · rw [hbu] at h4
      simp at h4
    · exact h4

theorem freeBlocks_restore_whole (s1 : List Blk) (b : Blk) (s2 : List Blk)
    (hbu : b.used = false)
    (hlast : ∀ pv ∈ s1.getLast?, pv.used = true)
    (hhead : ∀ c ∈ s2.head?, c.used = true) :
    freeBlocks s1 ⟨b.size, true⟩ s2 = s1 ++ b :: s2 := by
  have hfs : fwdSize ⟨b.size, true⟩ s2 = b.size ∧ fwdRest s2 = s2 := by
    cases s2 with
    | nil => exact ⟨rfl, rfl⟩
    | cons c r =>
      have hc := hhead c (by simp)
      rw [fwdSize_cons, fwdRest_cons, hc]
      simp
  have hbeq : (⟨b.size, false⟩ : Blk) = b := by
    obtain ⟨bsz, bu⟩ := b
    simp at hbu
    rw [hbu]
  rw [freeBlocks_eq_bwd]
  rcases List.eq_nil_or_concat' s1 with rfl | ⟨s0, pv, rfl⟩
  · rw [bwdBlocks_nil]
    show _ :: _ = _ :: _
    rw [hfs.1, hfs.2, hbeq]
  · have hpv := hlast pv (by simp [List.getLast?_concat])
    rw [bwdBlocks_concat, hpv]
    simp only [Bool.true_eq_false, if_false]
    show _ ++ _ :: _ = _
    rw [hfs.1, hfs.2, hbeq]

theorem freeBlocks_restore_split (s1 : List Blk) (b : Blk) (s2 : List Blk)
    (needed : Nat) (hbe : b.size = needed + (b.size - needed))
    (hbu : b.used = false)
    (hlast : ∀ pv ∈ s1.getLast?, pv.used = true) :
    freeBlocks s1 ⟨needed, true⟩ (⟨b.size - needed, false⟩ :: s2) =
      s1 ++ b :: s2 := by
  have hfs : fwdSize ⟨needed, true⟩ (⟨b.size - needed, false⟩ :: s2) = b.size := by
    rw [fwdSize_cons]
    simp
    omega
  have hfr : fwdRest (⟨b.size - needed, false⟩ :: s2) = s2 := by
    rw [fwdRest_cons]
    simp
  have hbeq : (⟨b.size, false⟩ : Blk) = b := by
    obtain ⟨bsz, bu⟩ := b
    simp at hbu
    rw [hbu]
  rw [freeBlocks_eq_bwd, hfs, hfr]
  rcases List.eq_nil_or_concat' s1 with rfl | ⟨s0, pv, rfl⟩
  · rw [bwdBlocks_nil, hbeq]
    simp
  · have hpv := hlast pv (by simp [List.getLast?_concat])
    rw [bwdBlocks_concat, hpv]
    simp only [Bool.true_eq_false, if_false]
    rw [hbeq]

/-- Any pointer returned by the first-fit scan is the address just
past the header of some block of the walked layout. -/
theorem mallocScanF_addr (h : Heap) (needed : Nat) (hend : h.heapEnd < U32) :
    ∀ (suffix : List Blk) (fuel a p q : Nat) (M : Heap),
      layoutSeg h.mem suffix a p h.heapEnd (lastSz p suffix) →
      mallocScanF h needed a fuel = (some q, M) →
      ∃ s1 b s2, suffix = s1 ++ b :: s2 ∧ q = a + sumSz s1 + 8 := by
  intro suffix
  induction suffix with
  | nil =>
    intro fuel a p q M hlay heq
    obtain ⟨rfl, -⟩ := (layoutSeg_nil h.mem a p _ _).mp hlay
    match fuel with
    | 0 => simp [mallocScanF] at heq
    | fuel + 1 =>
      simp [mallocScanF] at heq
  | cons b l ih =>
    intro fuel a p q M hlay heq
    rw [layoutSeg_cons] at hlay
    obtain ⟨h1, h2, h3, h4, h5⟩ := hlay
    have hout := (layoutSeg_out h5).1
    have hblt : b.size < U32 := by omega
    have hmask : sizeMask (load32 h.mem a) = b.size := by
      rw [h1]
      exact sizeMask_storedOf b h4 hblt
    have ha : a < h.heapEnd := by omega
    match fuel with
    | 0 => simp [mallocScanF] at heq
    | fuel + 1 =>
      simp only [mallocScanF] at heq
      rw [if_pos ha] at heq
      by_cases hcond : load32 h.mem a % 2 = 0 ∧ needed ≤ sizeMask (load32 h.mem a)
      · rw [if_pos hcond] at heq
        refine ⟨[], b, l, by simp, ?_⟩
        by_cases hsp : needed + 16 ≤ sizeMask (load32 h.mem a)
        · rw [if_pos hsp] at heq
          simp at heq
          simp [heq.1]
        · rw [if_neg hsp] at heq
          simp at heq
          simp [heq.1]
      · rw [if_neg hcond, hmask, if_pos h3] at heq
        obtain ⟨s1, c, s2, hsuf, hq⟩ := ih fuel (a + b.size) b.size q M h5 heq
        refine ⟨b :: s1, c, s2, by rw [hsuf]; simp, ?_⟩
        rw [hq]
        simp
        omega


/-!
Concrete arenas used by the witnesses and counterexamples below.
-/

/-- All-zero boot memory. -/
def zeroMem : Memory := fun _ => 0

/-- A 64-byte arena at base address 8 whose two blocks are a 16-byte
used block followed by a 48-byte free block. -/
def c2heap : Heap :=
  ⟨8, 72, fun x => if x = 8 then 17 else if x = 24 then 48 else
    if x = 28 then 16 else 0⟩

/-- A 32-byte arena at base address 8 whose two blocks are a 16-byte
used block followed by a 16-byte free block. -/
def c8heap : Heap :=
  ⟨8, 40, fun x => if x = 8 then 17 else if x = 24 then 16 else
    if x = 28 then 16 else 0⟩

/-- Boot memory crafted so that a `free` of the in-arena pointer 56
(whose computed header address 48 is payload of an allocated block,
not a block header) corrupts the block chain of a 64-byte arena at
base address 8. -/
def c1mem : Memory := fun x =>
  if x = 48 then 4 else if x = 52 then 24 else if x = 68 then 8 else 0

/-- Boot memory crafted so that a `free` of the in-arena pointer 56
corrupts two backlinks of a 64-byte arena at base address 8 while
leaving every size field intact. -/
def c4mem : Memory := fun x => if x = 48 then 4 else if x = 52 then 4 else 0

/-- C1 (amended): after a successful `heap_init`, for every sequence
of `malloc`/`free` calls in which each `malloc` size is below
2^32 - 15 (no overflow in the required-size computation) and each
`free` argument is null, out of range, or the payload pointer of a
currently allocated block, walking blocks from the arena start by
repeatedly advancing by each block's masked size visits the block
sequence exactly, ends exactly at the arena end, and the block sizes
sum to the arena size.  (`walkSizes` returns `some` exactly when the
walk tiles `[heapStart, heapEnd)` and lands on `heapEnd`.) -/
theorem C1_arena_walk_invariant (h : Heap) (bs : List Blk) (hr : Reach h bs) :
    walkSizes h.mem h.heapEnd h.heapStart (h.heapEnd - h.heapStart + 1) =
      some (bs.map Blk.size) ∧
    sumSz bs = h.heapEnd - h.heapStart := by
  have hInv := Reach_inv hr
  have hout := (layoutSeg_out hInv.lay).1
  have hlen : bs.length < h.heapEnd - h.heapStart + 1 := by
    have := length_le_sumSz bs (fun b hb => (layoutSeg_sizes hInv.lay b hb).1)
    omega
  exact ⟨layoutSeg_walk hInv.lay hInv.endLt _ hlen, by omega⟩

theorem C1_witness :
    walkSizes (heap_init zeroMem 8 64).mem (heap_init zeroMem 8 64).heapEnd
        (heap_init zeroMem 8 64).heapStart
        ((heap_init zeroMem 8 64).heapEnd - (heap_init zeroMem 8 64).heapStart + 1) =
      some [64] ∧
    sumSz [⟨(heap_init zeroMem 8 64).heapEnd -
      (heap_init zeroMem 8 64).heapStart, false⟩] =
      (heap_init zeroMem 8 64).heapEnd - (heap_init zeroMem 8 64).heapStart := by
  exact C1_arena_walk_invariant _ _
    (Reach.init zeroMem 8 64 (by decide) (by decide) (by decide))

/-- C1 counterexample: the claim as frozen quantifies over every
sequence of `malloc`/`free` calls.  On a successfully initialized
64-byte arena at base address 8 (walk `[64]`), four `malloc 8` calls
return the payload pointers 16, 32, 48 and 64; `free 32` then
legitimately frees the second block.  The subsequent call `free 56`
passes the range check of memory.c (header address 48 lies inside the
arena) but 48 is payload of the third block, not a header: the
coalescing writes corrupt the size fields, and afterwards the walk
from the arena start no longer ends at the arena end (`walkSizes`
reports `none`: the walk overshoots the end), falsifying the claimed
invariant. -/
theorem C1_counterexample :
    (malloc (heap_init c1mem 8 64) 8).1 = some 16 ∧
    (malloc (malloc (heap_init c1mem 8 64) 8).2 8).1 = some 32 ∧
    (malloc (malloc (malloc (heap_init c1mem 8 64) 8).2 8).2 8).1 = some 48 ∧
    (malloc (malloc (malloc (malloc (heap_init c1mem 8 64) 8).2 8).2 8).2 8).1 =
      some 64 ∧
    walkSizes (heap_init c1mem 8 64).mem 72 8 65 = some [64] ∧
    (let hF := free (free
      (malloc (malloc (malloc (malloc (heap_init c1mem 8 64) 8).2 8).2 8).2 8).2
      32) 56
    hF.heapStart = 8 ∧ hF.heapEnd = 72 ∧
      walkSizes hF.mem hF.heapEnd hF.heapStart (hF.heapEnd - hF.heapStart + 1) =
        none ∧
      walkSizes hF.mem 72 8 200 = none) := by
  decide

/-- C4 (amended): after every `malloc` and every valid `free` (null,
out-of-range, or live payload pointer) following a successful
`heap_init` with `malloc` sizes below 2^32 - 15, every block's stored
backlink (`prev_size`, the word at its address + 4) equals the size of
the block immediately before it in address order, and the first
block's backlink is 0 (`lastSz 0 pre` is the size of the last block of
`pre`, or 0 when `pre` is empty). -/
theorem C4_backlink_invariant (h : Heap) (bs : List Blk) (hr : Reach h bs)
    (pre : List Blk) (b : Blk) (post : List Blk) (hbs : bs = pre ++ b :: post) :
    load32 h.mem (h.heapStart + sumSz pre + 4) = lastSz 0 pre := by
  have hInv := Reach_inv hr
  have hlay := hInv.lay
  rw [hbs] at hlay
  obtain ⟨-, hrest⟩ := (layoutSeg_append pre (b :: post) _ _ _ _).mp hlay
  rw [layoutSeg_cons] at hrest
  exact hrest.2.1

theorem C4_witness :
    load32 (heap_init zeroMem 8 64).mem 12 = 0 := by
  exact C4_backlink_invariant _ _
    (Reach.init zeroMem 8 64 (by decide) (by decide) (by decide)) []
    ⟨(heap_init zeroMem 8 64).heapEnd - (heap_init zeroMem 8 64).heapStart, false⟩
    [] rfl

/-- C4 counterexample: the claim as frozen quantifies over every
`malloc`/`free` call.  On a successfully initialized 64-byte arena at
base address 8, four `malloc 8` calls produce four used 16-byte
blocks at 8, 24, 40 and 56 (the walk reports `[16, 16, 16, 16]`).
The call `free 56` passes the range check (header address 48 is inside
the arena) but 48 is payload of the block at 40; the coalescing
writes land on the backlinks of the real blocks at 40 and 56.
Afterwards the walk still reports the same four 16-byte blocks, yet
the backlink of the block at 56 (the word at 60) is 8 instead of its
predecessor's size 16, and the backlink of the block at 40 (the word
at 44) is 24 instead of 16. -/
theorem C4_counterexample :
    (let hF := free
      (malloc (malloc (malloc (malloc (heap_init c4mem 8 64) 8).2 8).2 8).2 8).2
      56
    walkSizes hF.mem hF.heapEnd hF.heapStart (hF.heapEnd - hF.heapStart + 1) =
      some [16, 16, 16, 16] ∧
    load32 hF.mem 60 = 8 ∧ ¬ load32 hF.mem 60 = 16 ∧
    load32 hF.mem 44 = 24 ∧ ¬ load32 hF.mem 44 = 16) := by
  decide

/-- C2: on a well-formed arena (in particular one with no two adjacent
free blocks), releasing the payload pointer of any allocated block
leaves an arena in which no two address-adjacent blocks are both free:
the freed block has been coalesced with its free neighbours exactly as
described by `freeBlocks` (forward merge with a free successor,
backward merge into a free predecessor), and the full invariant holds
for the coalesced block list. -/
theorem C2_release_coalesces (h : Heap) (bs : List Blk) (hInv : Inv h bs)
    (pre : List Blk) (b : Blk) (post : List Blk) (hbs : bs = pre ++ b :: post)
    (hu : b.used = true) :
    Inv (free h (h.heapStart + sumSz pre + 8)) (freeBlocks pre b post) ∧
    noAdjFree (freeBlocks pre b post) := by
  have hs := free_spec h bs hInv pre b post hbs hu _ rfl
  exact ⟨hs.2.2.1, hs.2.2.1.adj⟩

theorem C2_witness :
    Inv (free c2heap 16) [⟨64, false⟩] ∧ noAdjFree [(⟨64, false⟩ : Blk)] := by
  exact C2_release_coalesces c2heap [⟨16, true⟩, ⟨48, false⟩]
    ⟨by decide, by decide, by decide, by decide, by decide, by decide⟩
    [] ⟨16, true⟩ [⟨48, false⟩] rfl rfl


/-- C5 (amended): on any arena state satisfying the structural
invariant, for every `n > 0` whose required-size computation does not
overflow (`n < 2^32 - 15`), if `malloc n` succeeds returning `p`, then
`free p` with no intervening allocation restores the exact
pre-allocation block layout: the original block list `bs` (block
boundaries, sizes, used flags and backlinks) again describes the
arena, and the arena bounds are unchanged. -/
theorem C5_alloc_release_roundtrip (h : Heap) (bs : List Blk) (hInv : Inv h bs)
    (n : Nat) (hn0 : 0 < n) (hn : n < U32 - 15) (p : Nat)
    (hp : (malloc h n).1 = some p) :
    Inv (free (malloc h n).2 p) bs ∧
    (free (malloc h n).2 p).heapStart = h.heapStart ∧
    (free (malloc h n).2 p).heapEnd = h.heapEnd := by
  obtain ⟨-, hInv2, hS, hE, hsome⟩ := malloc_spec h bs hInv n hn
  obtain ⟨s1, b, s2, hbs, hbu, hbn, hpv, habs, -⟩ := hsome p hp
  obtain ⟨hlast, hhead⟩ := adj_neighbors s1 b s2 (by rw [← hbs]; exact hInv.adj) hbu
  rw [habs] at hInv2
  have h16 := (align_size_spec n hn).1
  by_cases hsp : align_size n + 16 ≤ b.size
  · -- the block was split; the free re-merges the remainder
    have hnew : newBlks (align_size n) b =
        [⟨align_size n, true⟩, ⟨b.size - align_size n, false⟩] := by
      unfold newBlks
      rw [if_pos hsp]
    rw [hnew] at hInv2
    have hfs := free_spec (malloc h n).2 _ hInv2 s1 ⟨align_size n, true⟩
      (⟨b.size - align_size n, false⟩ :: s2) (by simp) rfl
      ((malloc h n).2.heapStart + sumSz s1) rfl
    have hres : freeBlocks s1 ⟨align_size n, true⟩
        (⟨b.size - align_size n, false⟩ :: s2) = s1 ++ b :: s2 :=
      freeBlocks_restore_split s1 b s2 (align_size n) (by omega) hbu hlast
    have hpeq : (malloc h n).2.heapStart + sumSz s1 + 8 = p := by
      rw [hS, hpv]
    rw [hpeq, hres, ← hbs] at hfs
    exact ⟨hfs.2.2.1, by rw [hfs.1, hS], by rw [hfs.2.1, hE]⟩
  · -- the block was used whole
    have hnew : newBlks (align_size n) b = [⟨b.size, true⟩] := by
      unfold newBlks
      rw [if_neg hsp]
    rw [hnew] at hInv2
    have hfs := free_spec (malloc h n).2 _ hInv2 s1 ⟨b.size, true⟩ s2 (by simp) rfl
      ((malloc h n).2.heapStart + sumSz s1) rfl
    have hres : freeBlocks s1 ⟨b.size, true⟩ s2 = s1 ++ b :: s2 :=
      freeBlocks_restore_whole s1 b s2 hbu hlast hhead
    have hpeq : (malloc h n).2.heapStart + sumSz s1 + 8 = p := by
      rw [hS, hpv]
    rw [hpeq, hres, ← hbs] at hfs
    exact ⟨hfs.2.2.1, by rw [hfs.1, hS], by rw [hfs.2.1, hE]⟩

theorem C5_witness :
    Inv (free (malloc c2heap 8).2 32) [⟨16, true⟩, ⟨48, false⟩] ∧
    (free (malloc c2heap 8).2 32).heapStart = c2heap.heapStart ∧
    (free (malloc c2heap 8).2 32).heapEnd = c2heap.heapEnd := by
  exact C5_alloc_release_roundtrip c2heap [⟨16, true⟩, ⟨48, false⟩]
    ⟨by decide, by decide, by decide, by decide, by decide, by decide⟩
    8 (by decide) (by decide) 32 (by decide)

/-- C5 counterexample: the claim as frozen quantifies over every
`n > 0`.  With `n = 2^32 - 10` the 32-bit computation
`(n + 8 + 7) & ~7` wraps to 0, so on a fresh 64-byte arena at base
address 8 (whole-walk `[64]`) `malloc (2^32 - 10)` nevertheless
succeeds, returning pointer 16 after writing a zero-sized block
header; the subsequent `free 16` then leaves the arena with a corrupt
chain (the walk no longer reaches the arena end) instead of restoring
the single 64-byte free block. -/
theorem C5_counterexample :
    (malloc (heap_init zeroMem 8 64) (U32 - 10)).1 = some 16 ∧
    walkSizes (heap_init zeroMem 8 64).mem 72 8 65 = some [64] ∧
    walkSizes (free (malloc (heap_init zeroMem 8 64) (U32 - 10)).2 16).mem 72 8 65 =
      none := by
  decide

/-- C6: `free` of a null pointer, or of any pointer whose computed
header address (`ptr - 8` in 32-bit pointer arithmetic) falls outside
the arena range `[heap_start, heap_end)`, returns the heap completely
unchanged: the validation happens before any block header or arena
byte is read or written, so no memory is modified. -/
theorem C6_release_invalid_noop (h : Heap) (p : Nat)
    (hp : p = 0 ∨ sub32 p 8 < h.heapStart ∨ h.heapEnd ≤ sub32 p 8) :
    free h p = h :=
  free_nop h p hp

theorem C6_witness :
    free c2heap 0 = c2heap ∧ free c2heap 100 = c2heap ∧ free c2heap 4 = c2heap :=
  ⟨C6_release_invalid_noop c2heap 0 (by decide),
    C6_release_invalid_noop c2heap 100 (by decide),
    C6_release_invalid_noop c2heap 4 (by decide)⟩

/-- C8: for `realloc` on the payload pointer of an allocated block
with a positive requested size whose required block size exceeds the
block's current total size, if the internal `malloc` fails then
`realloc` returns the null indication and the heap is returned exactly
as it was: the old block remains allocated with its contents, nothing
is copied and nothing is freed. -/
theorem C8_realloc_failure_preserves (h : Heap) (bs : List Blk) (hInv : Inv h bs)
    (pre : List Blk) (b : Blk) (post : List Blk) (hbs : bs = pre ++ b :: post)
    (hu : b.used = true) (n : Nat) (hn0 : 0 < n)
    (hgrow : b.size < align_size n)
    (hfail : (malloc h n).1 = none) (p : Nat)
    (hp : p = h.heapStart + sumSz pre + 8) :
    realloc h p n = (none, h) := by
  have hU : U32 = 4294967296 := rfl
  subst hbs hp
  have hlay := hInv.lay
  have hout := (layoutSeg_out hlay).1
  obtain ⟨hpre, hrest⟩ := (layoutSeg_append pre (b :: post) _ _ _ _).mp hlay
  rw [layoutSeg_cons] at hrest
  obtain ⟨hb1, hb2, hbpos, hb8, hpost⟩ := hrest
  have hsum := (layoutSeg_out hpost).1
  have hend := hInv.endLt
  have hblt : b.size < U32 := by omega
  set a := h.heapStart + sumSz pre with ha
  have hsub : sub32 (a + 8) 8 = a := by
    rw [sub32_eq (a + 8) 8 (by omega) (by omega)]
    omega
  have hload : sizeMask (load32 h.mem a) = b.size := by
    rw [hb1]
    exact sizeMask_storedOf b hb8 hblt
  have hm : malloc h n = (none, h) := by
    have h2 := malloc_none h n hfail
    have h3 : malloc h n = ((malloc h n).1, (malloc h n).2) := rfl
    rw [h3, hfail, h2]
  simp only [realloc]
  rw [if_neg (by omega), if_neg (by omega), hsub, hload, if_neg (by omega), hm]

theorem C8_witness :
    realloc c8heap 16 24 = (none, c8heap) := by
  exact C8_realloc_failure_preserves c8heap [⟨16, true⟩, ⟨16, false⟩]
    ⟨by decide, by decide, by decide, by decide, by decide, by decide⟩
    [] ⟨16, true⟩ [⟨16, false⟩] rfl rfl 24 (by decide) (by decide) (by decide)
    16 rfl

/-- C10: on a well-formed arena the start address is 8-byte aligned
and every block size is a multiple of 8, so (the header being 8 bytes)
every pointer returned by a successful `malloc`, `calloc`, or
`realloc` (on a live allocation) is 8-byte aligned. -/
theorem C10_returned_pointers_aligned (h : Heap) (bs : List Blk)
    (hInv : Inv h bs) :
    h.heapStart % 8 = 0 ∧
    (∀ b ∈ bs, b.size % 8 = 0) ∧
    (∀ n p, (malloc h n).1 = some p → p % 8 = 0) ∧
    (∀ nm sz p, (calloc h nm sz).1 = some p → p % 8 = 0) ∧
    (∀ pre b post n q, bs = pre ++ b :: post → b.used = true → 0 < n →
      (realloc h (h.heapStart + sumSz pre + 8) n).1 = some q → q % 8 = 0) := by
  have hsizes : ∀ b ∈ bs, b.size % 8 = 0 :=
    fun b hb => (layoutSeg_sizes hInv.lay b hb).2
  have hmal : ∀ n p, (malloc h n).1 = some p → p % 8 = 0 := by
    intro n p hp
    by_cases hn0 : n = 0
    · rw [hn0] at hp
      simp [malloc] at hp
    · have hmeq : malloc h n =
          mallocScanF h (align_size n) h.heapStart (h.heapEnd - h.heapStart + 1) := by
        unfold malloc
        rw [if_neg (by push_neg; exact ⟨hn0, hInv.startPos⟩)]
      rw [hmeq] at hp
      have hpair : mallocScanF h (align_size n) h.heapStart
          (h.heapEnd - h.heapStart + 1) =
          (some p, (mallocScanF h (align_size n) h.heapStart
            (h.heapEnd - h.heapStart + 1)).2) := by
        rw [← hp]
      obtain ⟨s1, b, s2, hbs, hq⟩ := mallocScanF_addr h (align_size n) hInv.endLt
        bs _ h.heapStart 0 p _ hInv.lay hpair
      have hs1 : sumSz s1 % 8 = 0 := by
        refine sumSz_mod8 s1 (fun c hc => hsizes c ?_)
        rw [hbs]
        simp [hc]
      have := hInv.startAligned
      omega
  refine ⟨hInv.startAligned, hsizes, hmal, ?_, ?_⟩
  · intro nm sz p hp
    simp only [calloc] at hp
    by_cases hov : nm ≠ 0 ∧ nm * sz % U32 / nm ≠ sz
    · rw [if_pos hov] at hp
      simp at hp
    · rw [if_neg hov] at hp
      rcases hm : malloc h (nm * sz % U32) with ⟨r, h2⟩
      rw [hm] at hp
      cases r with
      | none => simp at hp
      | some q =>
        simp at hp
        refine hmal (nm * sz % U32) p ?_
        rw [hm, ← hp]
  · intro pre b post n q hbs hu hn0 hq
    have hlay := hInv.lay
    rw [hbs] at hlay
    obtain ⟨hpre, hrest⟩ := (layoutSeg_append pre (b :: post) _ _ _ _).mp hlay
    rw [layoutSeg_cons] at hrest
    obtain ⟨hb1, hb2, hbpos, hb8, hpost⟩ := hrest
    have hsum := (layoutSeg_out hpost).1
    have hend := hInv.endLt
    have hU : U32 = 4294967296 := rfl
    set a := h.heapStart + sumSz pre with ha
    have hsub : sub32 (a + 8) 8 = a := by
      rw [sub32_eq (a + 8) 8 (by omega) (by omega)]
      omega
    have ha8 : a % 8 = 0 := by
      have h1 := hInv.startAligned
      have h2 : sumSz pre % 8 = 0 := by
        refine sumSz_mod8 pre (fun c hc => hsizes c ?_)
        rw [hbs]
        simp [hc]
      omega
    simp only [realloc] at hq
    rw [if_neg (by omega), if_neg (by omega), hsub] at hq
    by_cases hfit : align_size n ≤ sizeMask (load32 h.mem a)
    · rw [if_pos hfit] at hq
      simp at hq
      omega
    · rw [if_neg hfit] at hq
      rcases hm : malloc h n with ⟨r, h2⟩
      rw [hm] at hq
      cases r with
      | none => simp at hq
      | some np =>
        simp at hq
        refine hmal n q ?_
        rw [hm, ← hq]

theorem C10_witness :
    (malloc c2heap 8).1 = some 32 ∧ 32 % 8 = 0 ∧
    (realloc c2heap 16 4).1 = some 16 ∧ 16 % 8 = 0 := by
  refine ⟨by decide, ?_, by decide, ?_⟩
  · exact (C10_returned_pointers_aligned c2heap [⟨16, true⟩, ⟨48, false⟩]
      ⟨by decide, by decide, by decide, by decide, by decide, by decide⟩).2.2.1
      8 32 (by decide)
  · exact (C10_returned_pointers_aligned c2heap [⟨16, true⟩, ⟨48, false⟩]
      ⟨by decide, by decide, by decide, by decide, by decide, by decide⟩).2.2.2.2
      [] ⟨16, true⟩ [⟨48, false⟩] 4 16 rfl rfl (by decide) (by decide)

/-!
The virtual file layer of src/firmware/libc/file.c.  The header libc.h
is not part of the repository and dataslot.c contains only stubs that
unconditionally fail, so the data-slot bridge and the FILE structure
are modelled from the spec (section 3, DataSlotBridge; section 4.2,
VirtualFileLayer); everything else below is transcribed from file.c.
-/

/-- Modelled from the spec: the DataSlotBridge collaborator.  The
repository's dataslot.c contains only stubs returning failure, so the
bridge is an abstract interface: `size slot` is the value reported by
`dataslot_get_size` (none when that call fails), `data slot i` is byte
`i` of the slot's contents, and `readOk slot off len` tells whether
`dataslot_read(slot, off, buf, len)` succeeds; a successful read
copies bytes `data slot (off + i)`, `i < len`, into the buffer. -/
structure Bridge where
  size : Nat → Option Nat
  data : Nat → Nat → Nat
  readOk : Nat → Nat → Nat → Bool

/-- The memory effect of a successful `dataslot_read(slot, off, buf,
len)`: the bytes `[buf, buf + len)` receive the slot contents starting
at `off`, everything else is untouched. -/
def dataslotWrite (br : Bridge) (m : Memory) (slot off buf len : Nat) : Memory :=
  fun x => if buf ≤ x ∧ x < buf + len then br.data slot (off + (x - buf)) % 256 else m x

/-- Modelled from the spec: the FILE structure of libc.h (the header
is absent from the repository; the fields and their types are the ones
file.c uses): backing slot id, 32-bit read cursor `offset`, recorded
32-bit `size`, open `flags`, and `data`, the address of an in-memory
copy of the slot contents or `none` for a null pointer. -/
structure CFile where
  slot_id : Nat
  offset : Nat
  size : Nat
  flags : Nat
  data : Option Nat
deriving DecidableEq

/-- Modelled from the spec: the SEEK_SET / SEEK_CUR / SEEK_END
constants of libc.h take the conventional values 0, 1, 2 (file.c only
requires them to be distinct). -/
def SEEK_SET : Nat := 0

/-- Modelled from the spec: see SEEK_SET. -/
def SEEK_CUR : Nat := 1

/-- Modelled from the spec: see SEEK_SET. -/
def SEEK_END : Nat := 2

/-- Two's-complement wrap of an integer into the 32-bit `long` /
`off_t` of the ilp32 target, range [-2^31, 2^31).  Used for the
`(long)` conversions of fseek (file.c lines 162 and 165, an
implementation-defined conversion in C) and for the value the
`long`-typed additions of the seek switch produce (a signed overflow
there is undefined behaviour in C; the target compiles it as wrapping
arithmetic, and the uint32 route lseek takes computes the same
value). -/
def toLong (v : Int) : Int := (v + 2147483648) % 4294967296 - 2147483648

/-- The switch shared by fseek (lines 157-169 of file.c) and lseek
(lines 515-527): the requested absolute offset as the 32-bit signed
value the C computes, `none` for an unknown `whence`.  fseek computes
`(long)cursor + offset` and `(long)size + offset` in 32-bit `long`;
lseek reaches the same wrapped value through uint32 addition followed
by the `off_t` conversion. -/
def seekTarget (cur sz : Nat) (off : Int) (whence : Nat) : Option Int :=
  if whence = SEEK_SET then some (toLong off)
  else if whence = SEEK_CUR then some (toLong (toLong cur + off))
  else if whence = SEEK_END then some (toLong (toLong sz + off))
  else none

/-- Lines 150-177 of file.c, `fseek(stream, offset, whence)`: compute
the target offset, reject it when it is negative or greater than the
recorded size, otherwise store it in the 32-bit cursor and return 0.
The `stream == NULL` check is not modelled: a `CFile` value always
represents a valid stream. -/
def fseek (f : CFile) (off : Int) (whence : Nat) : Int × CFile :=
  match seekTarget f.offset f.size off whence with
  | none => (-1, f)
  | some v =>
    if v < 0 ∨ (f.size : Int) < v then (-1, f)
    else (0, { f with offset := v.toNat })

/-- The state of the POSIX-style descriptor tables of file.c lines
448-450: per-slot 32-bit cursor, 32-bit recorded size, and in-use
flag, each a table of 16 entries indexed by slot id. -/
structure FdState where
  fdOffset : Nat → Nat
  fdSize : Nat → Nat
  fdUsed : Nat → Bool

/-- Lines 508-535 of file.c, `lseek(fd, offset, whence)`: map the
descriptor to a slot id via FD_TO_SLOT(fd) = -fd - 1, reject out of
range or unused slots, compute the target offset, reject it only when
it is negative, store it in the 32-bit cursor table and return it. -/
def lseek (fs : FdState) (fd : Int) (off : Int) (whence : Nat) : Int × FdState :=
  let slot : Int := -fd - 1
  if slot < 0 ∨ 16 ≤ slot ∨ fs.fdUsed slot.toNat = false then (-1, fs)
  else
    match seekTarget (fs.fdOffset slot.toNat) (fs.fdSize slot.toNat) off whence with
    | none => (-1, fs)
    | some v =>
      if v < 0 then (-1, fs)
      else (v, ⟨fun i => if i = slot.toNat then v.toNat % U32 else fs.fdOffset i,
                fs.fdSize, fs.fdUsed⟩)

/-- Lines 106-139 of file.c, `fread(ptr, size, nmemb, stream)`:
compute the request in 32-bit arithmetic, truncate it to the bytes
remaining before the recorded size rounded down to whole elements,
then copy either from the in-memory data buffer or through
`dataslot_read`, advancing the cursor on success.  Returns the element
count together with the new memory and stream.  The `stream == NULL`
check is not modelled. -/
def fread (br : Bridge) (m : Memory) (ptr size nmemb : Nat) (f : CFile) :
    Nat × Memory × CFile :=
  if ptr = 0 ∨ size = 0 ∨ nmemb = 0 then (0, m, f)
  else
    let total0 := size * nmemb % U32
    let avail := sub32 f.size f.offset
    let n := if avail < total0 then avail / size else nmemb
    let total := if avail < total0 then avail / size * size else total0
    if total = 0 then (0, m, f)
    else
      match f.data with
      | some buf =>
        (n, memcpyBytes m ptr (buf + f.offset) total,
         { f with offset := (f.offset + total) % U32 })
      | none =>
        if br.readOk f.slot_id f.offset total then
          (n, dataslotWrite br m f.slot_id f.offset ptr total,
           { f with offset := (f.offset + total) % U32 })
        else (0, m, f)

/-- Modelled from the spec: the MAP_FAILED sentinel of libc.h,
`(void *)-1`, i.e. address 2^32 - 1 on the 32-bit target. -/
def MAP_FAILED : Nat := U32 - 1

/-- Lines 542-565 of file.c, `mmap(addr, length, prot, flags, fd,
offset)`: validate the descriptor, `malloc(length)`, and fill the
buffer through `dataslot_read`, freeing it again when the read fails.
The ignored `addr`, `prot` and `flags` parameters (cast to void by the
C) are omitted; the MAP_FAILED return value is modelled as `none`. -/
def mmap (br : Bridge) (fs : FdState) (h : Heap) (length : Nat) (fd : Int)
    (off : Nat) : Option Nat × Heap :=
  let slot : Int := -fd - 1
  if slot < 0 ∨ 16 ≤ slot ∨ fs.fdUsed slot.toNat = false then (none, h)
  else
    match malloc h length with
    | (none, h1) => (none, h1)
    | (some p, h1) =>
      if br.readOk slot.toNat off length then
        (some p, ⟨h1.heapStart, h1.heapEnd, dataslotWrite br h1.mem slot.toNat off p length⟩)
      else (none, free h1 p)

/-- Lines 567-573 of file.c, `munmap(addr, length)`: free the buffer
unless the address is null or MAP_FAILED; always return 0 (`length` is
cast to void). -/
def munmap (h : Heap) (addr length : Nat) : Int × Heap :=
  if addr ≠ 0 ∧ addr ≠ MAP_FAILED then (0, (free h addr : Heap)) else (0, h)

/-- An open stream on slot 0, cursor 3, recorded size 10, no in-memory
buffer. -/
def c3file : CFile := ⟨0, 3, 10, 0, none⟩

/-- A descriptor table with only slot 0 open, size 10, cursor 0. -/
def fd0state : FdState := ⟨fun _ => 0, fun _ => 10, fun i => i == 0⟩

/-- C3: seek validation.  With the target offset computed in the
wrapping 32-bit long arithmetic of `seekTarget` (as the C does), fseek
rejects - returning -1 and leaving the stream unchanged - exactly the
computed targets that are negative or past the recorded size, and
stores accepted ones; lseek on a valid descriptor rejects only
negative computed targets: any nonnegative target, including one past
the recorded size, is stored in the cursor and returned.  The frozen
claim fails twice, see the counterexample: lseek misses the
upper-bound check, and for recorded sizes at and above 2^31 the
`(long)` conversion wraps negative, so fseek rejects resulting offsets
that are neither negative nor past the size. -/
theorem C3_seek_validation (f : CFile) (off : Int) (w : Nat)
    (fs : FdState) (fd off2 : Int) (w2 : Nat) (v2 : Int) (s : Nat)
    (hs : (s : Int) = -fd - 1) (h16 : s < 16)
    (hused : fs.fdUsed s = true)
    (hv2 : seekTarget (fs.fdOffset s) (fs.fdSize s) off2 w2 = some v2) :
    (∀ v, seekTarget f.offset f.size off w = some v →
      ((v < 0 ∨ (f.size : Int) < v) → fseek f off w = (-1, f)) ∧
      (0 ≤ v → v ≤ (f.size : Int) →
        fseek f off w = (0, { f with offset := v.toNat }))) ∧
    (seekTarget f.offset f.size off w = none → fseek f off w = (-1, f)) ∧
    (v2 < 0 → lseek fs fd off2 w2 = (-1, fs)) ∧
    (0 ≤ v2 → lseek fs fd off2 w2 =
      (v2, ⟨fun i => if i = s then v2.toNat % U32 else fs.fdOffset i,
            fs.fdSize, fs.fdUsed⟩)) := by
  have htn : (-fd - 1).toNat = s := by omega
  have hguard : ¬((-fd - 1 : Int) < 0 ∨ 16 ≤ (-fd - 1 : Int) ∨
      fs.fdUsed (-fd - 1).toNat = false) := by
    rw [htn, hused]
    push_neg
    refine ⟨by omega, by omega, by simp⟩
  refine ⟨?_, ?_, ?_, ?_⟩
  · intro v hv
    unfold fseek
    rw [hv]
    constructor
    · intro hrej
      show (if v < 0 ∨ (f.size : Int) < v then ((-1 : Int), f)
        else ((0 : Int), { f with offset := v.toNat })) = ((-1 : Int), f)
      rw [if_pos hrej]
    · intro h0 hle
      have hc : ¬(v < 0 ∨ (f.size : Int) < v) := by
        push_neg
        exact ⟨h0, hle⟩
      show (if v < 0 ∨ (f.size : Int) < v then ((-1 : Int), f)
        else ((0 : Int), { f with offset := v.toNat })) =
        ((0 : Int), { f with offset := v.toNat })
      rw [if_neg hc]
  · intro hv
    unfold fseek
    rw [hv]
  · intro hneg
    unfold lseek
    rw [if_neg hguard, htn, hv2]
    show (if v2 < 0 then ((-1 : Int), fs)
      else (v2, ⟨fun i => if i = s then v2.toNat % U32 else fs.fdOffset i,
                 fs.fdSize, fs.fdUsed⟩)) = ((-1 : Int), fs)
    rw [if_pos hneg]
  · intro hpos
    have hc : ¬v2 < 0 := by omega
    unfold lseek
    rw [if_neg hguard, htn, hv2]
    show (if v2 < 0 then ((-1 : Int), fs)
      else (v2, ⟨fun i => if i = s then v2.toNat % U32 else fs.fdOffset i,
                 fs.fdSize, fs.fdUsed⟩)) =
      (v2, ⟨fun i => if i = s then v2.toNat % U32 else fs.fdOffset i,
            fs.fdSize, fs.fdUsed⟩)
    rw [if_neg hc]

theorem C3_witness :
    ((0 : Nat) : Int) = -(-1 : Int) - 1 ∧ (0 : Nat) < 16 ∧
    fd0state.fdUsed 0 = true ∧
    seekTarget (fd0state.fdOffset 0) (fd0state.fdSize 0) 4 SEEK_SET = some 4 ∧
    fseek c3file 5 SEEK_SET = (0, { c3file with offset := (5 : Int).toNat }) ∧
    lseek fd0state (-1) 4 SEEK_SET =
      (4, ⟨fun i => if i = 0 then (4 : Int).toNat % U32 else fd0state.fdOffset i,
           fd0state.fdSize, fd0state.fdUsed⟩) := by
  refine ⟨by decide, by decide, by decide, by decide, ?_, ?_⟩
  · exact ((C3_seek_validation c3file 5 SEEK_SET fd0state (-1) 4 SEEK_SET 4 0
      (by decide) (by decide) (by decide) (by decide)).1 5 (by decide)).2
      (by decide) (by decide)
  · exact (C3_seek_validation c3file 5 SEEK_SET fd0state (-1) 4 SEEK_SET 4 0
      (by decide) (by decide) (by decide) (by decide)).2.2.2 (by decide)

/-- A stream on a slot of recorded size 3 * 10^9, past 2^31: the
`(long)` conversion of the size wraps negative. -/
def c3bigfile : CFile := ⟨0, 0, 3000000000, 0, none⟩

theorem C3_counterexample :
    (lseek fd0state (-1) 20 SEEK_SET).1 = 20 ∧
    (lseek fd0state (-1) 20 SEEK_SET).2.fdOffset 0 = 20 ∧
    fd0state.fdSize 0 = 10 ∧ fd0state.fdUsed 0 = true ∧
    fseek c3bigfile (-10) SEEK_END = (-1, c3bigfile) ∧
    (0 : Int) ≤ (c3bigfile.size : Int) + (-10) ∧
    (c3bigfile.size : Int) + (-10) ≤ (c3bigfile.size : Int) := by
  decide

/-- An open stream on slot 0, cursor 0, recorded size 10, in-memory
buffer at address 100. -/
def c7file : CFile := ⟨0, 0, 10, 0, some 100⟩

/-- An open stream on slot 0, cursor 0, recorded size 100, in-memory
buffer at address 200. -/
def c7bigfile : CFile := ⟨0, 0, 100, 0, some 200⟩

/-- A bridge on which every read fails; never consulted on the
in-memory branch of `fread`. -/
def br7 : Bridge := ⟨fun _ => none, fun _ _ => 0, fun _ _ _ => false⟩

/-- C7: fread truncation.  When the 32-bit byte count size * nmemb
does not overflow, the cursor is within the recorded size, and the
underlying copy succeeds, `fread` returns n = min(nmemb, (s - c) /
size) elements, advances the cursor by exactly n * size, copies
exactly the n * size bytes `[ptr, ptr + n * size)` (from the in-memory
buffer or the bridge), and leaves every other byte and the stream's
size and data fields unchanged; in particular once the cursor reaches
the size every read returns 0 elements.  Without the overflow
hypothesis the claim fails, see the counterexample. -/
theorem C7_fread_truncation (br : Bridge) (m : Memory) (ptr size nmemb : Nat)
    (f : CFile) (hptr : ptr ≠ 0) (hsz : 0 < size) (hnm : 0 < nmemb)
    (hcur : f.offset ≤ f.size) (hfsz : f.size < U32)
    (hov : size * nmemb < U32)
    (hcopy : f.data ≠ none ∨
      br.readOk f.slot_id f.offset
        (min nmemb ((f.size - f.offset) / size) * size) = true) :
    (fread br m ptr size nmemb f).1 = min nmemb ((f.size - f.offset) / size) ∧
    (fread br m ptr size nmemb f).2.2.offset =
      f.offset + min nmemb ((f.size - f.offset) / size) * size ∧
    (fread br m ptr size nmemb f).2.2.size = f.size ∧
    (fread br m ptr size nmemb f).2.2.data = f.data ∧
    (∀ x, x < ptr ∨ ptr + min nmemb ((f.size - f.offset) / size) * size ≤ x →
      (fread br m ptr size nmemb f).2.1 x = m x) ∧
    (∀ buf, f.data = some buf →
      ∀ x, ptr ≤ x → x < ptr + min nmemb ((f.size - f.offset) / size) * size →
        (fread br m ptr size nmemb f).2.1 x = m (buf + f.offset + (x - ptr))) ∧
    (f.data = none →
      ∀ x, ptr ≤ x → x < ptr + min nmemb ((f.size - f.offset) / size) * size →
        (fread br m ptr size nmemb f).2.1 x =
          br.data f.slot_id (f.offset + (x - ptr)) % 256) := by
  have hU : U32 = 4294967296 := rfl
  set A := f.size - f.offset with hA
  set n := min nmemb (A / size) with hn
  have hg1 : ¬(ptr = 0 ∨ size = 0 ∨ nmemb = 0) := by
    push_neg
    exact ⟨hptr, by omega, by omega⟩
  have havail : sub32 f.size f.offset = A := by
    rw [hA]
    exact sub32_eq _ _ hcur hfsz
  have htot0 : size * nmemb % U32 = size * nmemb := Nat.mod_eq_of_lt hov
  have hdm : A / size * size ≤ A := Nat.div_mul_le_self A size
  by_cases hcmp : A < size * nmemb
  · have hlt : A / size < nmemb := by
      rw [Nat.div_lt_iff_lt_mul hsz]
      calc A < size * nmemb := hcmp
        _ = nmemb * size := Nat.mul_comm _ _
    have hmin : n = A / size := by
      rw [hn]
      exact Nat.min_eq_right (Nat.le_of_lt hlt)
    have htotle : n * size ≤ A := by
      rw [hmin]
      exact hdm
    have hoff : (f.offset + n * size) % U32 = f.offset + n * size :=
      Nat.mod_eq_of_lt (by omega)
    by_cases hz : A / size * size = 0
    · have hn0 : n = 0 := by
        rcases Nat.mul_eq_zero.mp hz with h | h
        · rw [hmin, h]
        · omega
      have hres : fread br m ptr size nmemb f = (0, m, f) := by
        simp only [fread]
        rw [if_neg hg1, havail, htot0, if_pos hcmp, if_pos hcmp, if_pos hz]
      rw [hres, hn0]
      refine ⟨rfl, ?_, rfl, rfl, fun x _ => rfl, ?_, ?_⟩
      · show f.offset = f.offset + 0 * size
        omega
      · intro buf _ x hx1 hx2
        omega
      · intro _ x hx1 hx2
        omega
    · rcases hd : f.data with _ | buf
      · rcases hcopy with hcopy | hcopy
        · exact absurd hd hcopy
        · have hok : br.readOk f.slot_id f.offset (A / size * size) = true := by
            rw [← hmin]
            exact hcopy
          have hres : fread br m ptr size nmemb f =
              (n, dataslotWrite br m f.slot_id f.offset ptr (n * size),
               { f with offset := (f.offset + n * size) % U32 }) := by
            simp only [fread]
            rw [if_neg hg1, havail, htot0, if_pos hcmp, if_pos hcmp, if_neg hz, hd,
              if_pos hok, hmin]
          rw [hres]
          refine ⟨rfl, ?_, rfl, hd, ?_, ?_, ?_⟩
          · show (f.offset + n * size) % U32 = f.offset + n * size
            exact hoff
          · intro x hx
            show dataslotWrite br m f.slot_id f.offset ptr (n * size) x = m x
            unfold dataslotWrite
            rw [if_neg (by omega)]
          · intro buf hbuf
            exact absurd hbuf (by simp)
          · intro _ x hx1 hx2
            show dataslotWrite br m f.slot_id f.offset ptr (n * size) x =
              br.data f.slot_id (f.offset + (x - ptr)) % 256
            unfold dataslotWrite
            rw [if_pos ⟨hx1, hx2⟩]
      · have hres : fread br m ptr size nmemb f =
            (n, memcpyBytes m ptr (buf + f.offset) (n * size),
             { f with offset := (f.offset + n * size) % U32 }) := by
          simp only [fread]
          rw [if_neg hg1, havail, htot0, if_pos hcmp, if_pos hcmp, if_neg hz, hd, hmin]
        rw [hres]
        refine ⟨rfl, ?_, rfl, ?_, ?_, ?_, ?_⟩
        · show (f.offset + n * size) % U32 = f.offset + n * size
          exact hoff
        · exact hd
        · intro x hx
          show memcpyBytes m ptr (buf + f.offset) (n * size) x = m x
          unfold memcpyBytes
          rw [if_neg (by omega)]
        · intro buf2 hbuf2 x hx1 hx2
          have hbeq : buf = buf2 := by
            injection hbuf2 with h
          subst hbeq
          show memcpyBytes m ptr (buf + f.offset) (n * size) x =
            m (buf + f.offset + (x - ptr))
          unfold memcpyBytes
          rw [if_pos ⟨hx1, hx2⟩]
        · intro hnone
          exact absurd hnone (by simp)
  · have hle : nmemb ≤ A / size := by
      rw [Nat.le_div_iff_mul_le hsz]
      calc nmemb * size = size * nmemb := Nat.mul_comm _ _
        _ ≤ A := by omega
    have hmin : n = nmemb := by
      rw [hn]
      exact Nat.min_eq_left hle
    have htotle : n * size ≤ A := by
      rw [hmin]
      calc nmemb * size = size * nmemb := Nat.mul_comm _ _
        _ ≤ A := by omega
    have hoff : (f.offset + n * size) % U32 = f.offset + n * size :=
      Nat.mod_eq_of_lt (by omega)
    have hcomm : size * nmemb = n * size := by
      rw [hmin]
      exact Nat.mul_comm _ _
    have hz : size * nmemb ≠ 0 := by
      have := Nat.mul_pos hsz hnm
      omega
    rcases hd : f.data with _ | buf
    · rcases hcopy with hcopy | hcopy
      · exact absurd hd hcopy
      · have hok : br.readOk f.slot_id f.offset (size * nmemb) = true := by
          rw [hcomm]
          exact hcopy
        have hres : fread br m ptr size nmemb f =
            (n, dataslotWrite br m f.slot_id f.offset ptr (n * size),
             { f with offset := (f.offset + n * size) % U32 }) := by
          simp only [fread]
          rw [if_neg hg1, havail, htot0, if_neg hcmp, if_neg hcmp, if_neg hz, hd,
            if_pos hok, hcomm, hmin]
        rw [hres]
        refine ⟨rfl, ?_, rfl, hd, ?_, ?_, ?_⟩
        · show (f.offset + n * size) % U32 = f.offset + n * size
          exact hoff
        · intro x hx
          show dataslotWrite br m f.slot_id f.offset ptr (n * size) x = m x
          unfold dataslotWrite
          rw [if_neg (by omega)]
        · intro buf hbuf
          exact absurd hbuf (by simp)
        · intro _ x hx1 hx2
          show dataslotWrite br m f.slot_id f.offset ptr (n * size) x =
            br.data f.slot_id (f.offset + (x - ptr)) % 256
          unfold dataslotWrite
          rw [if_pos ⟨hx1, hx2⟩]
    · have hres : fread br m ptr size nmemb f =
          (n, memcpyBytes m ptr (buf + f.offset) (n * size),
           { f with offset := (f.offset + n * size) % U32 }) := by
        simp only [fread]
        rw [if_neg hg1, havail, htot0, if_neg hcmp, if_neg hcmp, if_neg hz, hd,
          hcomm, hmin]
      rw [hres]
      refine ⟨rfl, ?_, rfl, ?_, ?_, ?_, ?_⟩
      · show (f.offset + n * size) % U32 = f.offset + n * size
        exact hoff
      · exact hd
      · intro x hx
        show memcpyBytes m ptr (buf + f.offset) (n * size) x = m x
        unfold memcpyBytes
        rw [if_neg (by omega)]
      · intro buf2 hbuf2 x hx1 hx2
        have hbeq : buf = buf2 := by
          injection hbuf2 with h
        subst hbeq
        show memcpyBytes m ptr (buf + f.offset) (n * size) x =
          m (buf + f.offset + (x - ptr))
        unfold memcpyBytes
        rw [if_pos ⟨hx1, hx2⟩]
      · intro hnone
        exact absurd hnone (by simp)
theorem C7_witness :
    (4096 : Nat) ≠ 0 ∧ (0 : Nat) < 4 ∧ (0 : Nat) < 3 ∧
    c7file.offset ≤ c7file.size ∧ c7file.size < U32 ∧ 4 * 3 < U32 ∧
    c7file.data ≠ none ∧
    (fread br7 zeroMem 4096 4 3 c7file).1 = 2 ∧
    (fread br7 zeroMem 4096 4 3 c7file).2.2.offset = 8 := by
  refine ⟨by decide, by decide, by decide, by decide, by decide, by decide,
    by decide, ?_, ?_⟩
  · exact ((C7_fread_truncation br7 zeroMem 4096 4 3 c7file (by decide) (by decide)
      (by decide) (by decide) (by decide) (by decide) (Or.inl (by decide))).1).trans
      (by decide)
  · exact ((C7_fread_truncation br7 zeroMem 4096 4 3 c7file (by decide) (by decide)
      (by decide) (by decide) (by decide) (by decide) (Or.inl (by decide))).2.1).trans
      (by decide)

theorem C7_counterexample :
    (fread br7 zeroMem 4096 2 2147483649 c7bigfile).1 = 2147483649 ∧
    min 2147483649 ((c7bigfile.size - c7bigfile.offset) / 2) = 50 := by
  constructor
  · decide
  · decide

/-!
Support for the mmap/munmap independence claim: positional reasoning
about two decompositions of the same block list, and preservation of
the invariant under writes confined to one block's payload.
-/

theorem decomp_cases (x y u v : List Blk) (c d : Blk)
    (h : x ++ c :: y = u ++ d :: v) :
    (x = u ∧ c = d ∧ y = v) ∨
    (∃ w, u = x ++ c :: w ∧ y = w ++ d :: v) ∨
    (∃ w, x = u ++ d :: w ∧ v = w ++ c :: y) := by
  induction x generalizing u with
  | nil =>
    cases u with
    | nil =>
      simp at h
      exact Or.inl ⟨rfl, h.1, h.2⟩
    | cons e u2 =>
      simp at h
      exact Or.inr (Or.inl ⟨u2, by simp [h.1], h.2⟩)
  | cons a x2 ih =>
    cases u with
    | nil =>
      simp at h
      exact Or.inr (Or.inr ⟨x2, by simp [h.1], h.2.symm⟩)
    | cons e u2 =>
      simp at h
      rcases ih u2 h.2 with ⟨h1, h2, h3⟩ | ⟨w, hw1, hw2⟩ | ⟨w, hw1, hw2⟩
      · exact Or.inl ⟨by rw [h.1, h1], h2, h3⟩
      · exact Or.inr (Or.inl ⟨w, by simp [h.1.symm, hw1], hw2⟩)
      · exact Or.inr (Or.inr ⟨w, by simp [h.1, hw1], hw2⟩)

theorem decomp_lt {bs x y u v : List Blk} {c d : Blk}
    (h1 : bs = x ++ c :: y) (h2 : bs = u ++ d :: v)
    (hlt : sumSz x < sumSz u) :
    ∃ w, u = x ++ c :: w ∧ y = w ++ d :: v := by
  rcases decomp_cases x y u v c d (h1.symm.trans h2) with ⟨hx, -, -⟩ | hc | ⟨w, hw1, -⟩
  · rw [hx] at hlt
    omega
  · exact hc
  · rw [hw1] at hlt
    simp at hlt

theorem decomp_eq {bs x y u v : List Blk} {c d : Blk}
    (h1 : bs = x ++ c :: y) (h2 : bs = u ++ d :: v)
    (hpos : ∀ b ∈ bs, 0 < b.size)
    (heq : sumSz x = sumSz u) :
    x = u ∧ c = d ∧ y = v := by
  rcases decomp_cases x y u v c d (h1.symm.trans h2) with h | ⟨w, hw1, -⟩ | ⟨w, hw1, -⟩
  · exact h
  · have hcpos : 0 < c.size := hpos c (by rw [h1]; simp)
    rw [hw1] at heq
    simp at heq
    omega
  · have hdpos : 0 < d.size := hpos d (by rw [h2]; simp)
    rw [hw1] at heq
    simp at heq
    omega

theorem getLast?_concat_decomp (bs : List Blk) (pv : Blk)
    (h : bs.getLast? = some pv) : ∃ pre2, bs = pre2 ++ [pv] := by
  induction bs with
  | nil => simp at h
  | cons b l ih =>
    cases l with
    | nil =>
      simp [List.getLast?] at h
      exact ⟨[], by simp [h]⟩
    | cons c l2 =>
      rw [List.getLast?_cons_cons] at h
      obtain ⟨p2, hp2⟩ := ih h
      exact ⟨b :: p2, by rw [hp2]; simp⟩

/-- Writes confined to the payload of one block (everything outside
`[a + 8, a + size)` agrees, where `a` is the block's header address)
preserve the arena invariant: the layout only constrains header
fields. -/
theorem Inv_payload_write (h : Heap) (bs pre : List Blk) (B : Blk) (post : List Blk)
    (hInv : Inv h bs) (hbs : bs = pre ++ B :: post) (m' : Memory)
    (hag : ∀ x, x < h.heapStart + sumSz pre + 8 ∨
        h.heapStart + sumSz pre + B.size ≤ x → m' x = h.mem x) :
    Inv ⟨h.heapStart, h.heapEnd, m'⟩ bs := by
  obtain ⟨hend, hal, hle, hlay, hadj, hsp⟩ := hInv
  subst hbs
  refine ⟨hend, hal, hle, ?_, hadj, hsp⟩
  show layoutSeg m' (pre ++ B :: post) h.heapStart 0 h.heapEnd
    (lastSz 0 (pre ++ B :: post))
  rw [layoutSeg_append] at hlay ⊢
  obtain ⟨hpre, hrest⟩ := hlay
  rw [layoutSeg_cons] at hrest
  obtain ⟨hf1, hf2, hf3, hf4, htail⟩ := hrest
  refine ⟨layoutSeg_congr hpre (fun x hx1 hx2 => hag x (by omega)), ?_⟩
  rw [layoutSeg_cons]
  refine ⟨?_, ?_, hf3, hf4,
    layoutSeg_congr htail (fun x hx1 hx2 => hag x (by omega))⟩
  · rw [load32_congr (fun x hx1 hx2 => hag x (by omega)), hf1]
  · rw [load32_congr (fun x hx1 hx2 => hag x (by omega)), hf2]

/-- The head block of a successful `malloc`'s `newBlks`: an allocated
block of at least the required size, the total size of the replacement
being the size of the consumed free block. -/
theorem newBlks_facts (needed : Nat) (b : Blk) (hle : needed ≤ b.size) :
    ∃ s tl, newBlks needed b = ⟨s, true⟩ :: tl ∧ needed ≤ s ∧
      s + sumSz tl = b.size := by
  unfold newBlks
  by_cases hc : needed + 16 ≤ b.size
  · rw [if_pos hc]
    exact ⟨needed, [⟨b.size - needed, false⟩], rfl, Nat.le_refl _, by simp; omega⟩
  · rw [if_neg hc]
    exact ⟨b.size, [], rfl, hle, by simp⟩

/-- A successful `mmap` is a successful `malloc` whose returned buffer
is then filled from the data slot. -/
theorem mmap_succ (br : Bridge) (fs : FdState) (h : Heap) (len : Nat) (fd : Int)
    (off : Nat) (p : Nat) (hp : (mmap br fs h len fd off).1 = some p) :
    (malloc h len).1 = some p ∧
    (mmap br fs h len fd off).2 =
      ⟨(malloc h len).2.heapStart, (malloc h len).2.heapEnd,
       dataslotWrite br (malloc h len).2.mem (-fd - 1).toNat off p len⟩ := by
  rcases hm : malloc h len with ⟨r, h1⟩
  by_cases hg : ((-fd - 1 : Int) < 0 ∨ 16 ≤ (-fd - 1 : Int) ∨
      fs.fdUsed (-fd - 1).toNat = false)
  · have hres : mmap br fs h len fd off = (none, h) := by
      simp only [mmap]
      rw [if_pos hg]
    rw [hres] at hp
    simp at hp
  · cases r with
    | none =>
      have hres : mmap br fs h len fd off = (none, h1) := by
        simp only [mmap]
        rw [if_neg hg, hm]
      rw [hres] at hp
      simp at hp
    | some q =>
      by_cases hok : br.readOk (-fd - 1).toNat off len = true
      · have hres : mmap br fs h len fd off =
            (some q, ⟨h1.heapStart, h1.heapEnd,
              dataslotWrite br h1.mem (-fd - 1).toNat off q len⟩) := by
          simp only [mmap]
          rw [if_neg hg, hm]
          show (if br.readOk (-fd - 1).toNat off len = true then
              (some q, (⟨h1.heapStart, h1.heapEnd,
                dataslotWrite br h1.mem (-fd - 1).toNat off q len⟩ : Heap))
            else (none, free h1 q)) = _
          rw [if_pos hok]
        rw [hres] at hp
        simp at hp
        subst hp
        exact ⟨rfl, congrArg Prod.snd hres⟩
      · have hres : mmap br fs h len fd off = (none, free h1 q) := by
          simp only [mmap]
          rw [if_neg hg, hm]
          show (if br.readOk (-fd - 1).toNat off len = true then
              (some q, (⟨h1.heapStart, h1.heapEnd,
                dataslotWrite br h1.mem (-fd - 1).toNat off q len⟩ : Heap))
            else (none, free h1 q)) = _
          rw [if_neg hok]
        rw [hres] at hp
        simp at hp

/-- A block of the arena survives the first-fit surgery performed at a
different position, at an unchanged prefix sum. -/
theorem surgery_contains (t1 : List Blk) (c1 : Blk) (t2 s1 : List Blk) (B : Blk)
    (rest1 mid : List Blk)
    (heq : t1 ++ c1 :: t2 = s1 ++ B :: rest1)
    (hne : sumSz s1 ≠ sumSz t1) (hmid : sumSz mid = c1.size) :
    ∃ u v, t1 ++ mid ++ t2 = u ++ B :: v ∧ sumSz u = sumSz s1 := by
  rcases Nat.lt_or_ge (sumSz s1) (sumSz t1) with hlt | hge
  · obtain ⟨w, hw1, hw2⟩ := decomp_lt heq rfl hlt
    refine ⟨s1, w ++ mid ++ t2, ?_, rfl⟩
    rw [hw1]
    simp
  · have hlt2 : sumSz t1 < sumSz s1 := by omega
    obtain ⟨w, hw1, hw2⟩ := decomp_lt rfl heq hlt2
    refine ⟨t1 ++ mid ++ w, rest1, ?_, ?_⟩
    · rw [hw2]
      simp
    · rw [hw1]
      simp [hmid]

/-- The header load of any block of a well-formed arena. -/
theorem Inv_head_load (h : Heap) (bs pre : List Blk) (C : Blk) (post : List Blk)
    (hInv : Inv h bs) (hbs : bs = pre ++ C :: post) :
    load32 h.mem (h.heapStart + sumSz pre) = storedOf C := by
  have hlay := hInv.lay
  rw [hbs, layoutSeg_append] at hlay
  have h2 := hlay.2
  rw [layoutSeg_cons] at h2
  exact h2.1

/-- Freeing one allocated block writes nothing into the size field or
the payload of any other allocated block: the merged region and the
backlink it fixes never intersect them. -/
theorem free_other_frame (h : Heap) (bs pre : List Blk) (B : Blk) (post : List Blk)
    (pre2 : List Blk) (C : Blk) (post2 : List Blk)
    (hInv : Inv h bs) (hbs : bs = pre ++ B :: post) (hu : B.used = true)
    (hbs2 : bs = pre2 ++ C :: post2) (hcu : C.used = true)
    (hne : sumSz pre2 ≠ sumSz pre) :
    ∀ x, (h.heapStart + sumSz pre2 ≤ x ∧ x < h.heapStart + sumSz pre2 + 4) ∨
        (h.heapStart + sumSz pre2 + 8 ≤ x ∧ x < h.heapStart + sumSz pre2 + C.size) →
      (free h (h.heapStart + sumSz pre + 8)).mem x = h.mem x := by
  have hframe := (free_spec h bs hInv pre B post hbs hu
    (h.heapStart + sumSz pre) rfl).2.2.2
  intro x hx
  apply hframe
  have hsizes : ∀ b ∈ bs, 0 < b.size ∧ b.size % 8 = 0 := layoutSeg_sizes hInv.lay
  have hpos : ∀ b ∈ bs, 0 < b.size := fun b hb => (hsizes b hb).1
  have h8 : ∀ b ∈ bs, 8 ≤ b.size := fun b hb => by
    have := hsizes b hb
    omega
  have hCsz : 8 ≤ C.size := h8 C (by rw [hbs2]; simp)
  rcases Nat.lt_or_ge (sumSz pre2) (sumSz pre) with hlt | hge
  · left
    obtain ⟨w, hw1, hw2⟩ := decomp_lt hbs2 hbs hlt
    have hS : sumSz pre = sumSz pre2 + C.size + sumSz w := by
      rw [hw1]
      simp
      omega
    rcases hgl : pre.getLast? with _ | pv
    · have hpre : pre = [] := (getLast?_eq_none_iff pre).mp hgl
      rw [hpre] at hS
      simp at hS
      omega
    · have hback : backSize pre = if pv.used = false then pv.size else 0 := by
        unfold backSize
        rw [hgl]
      by_cases hpvu : pv.used = false
      · obtain ⟨pre3, hpre3⟩ := getLast?_concat_decomp pre pv hgl
        have hS2 : sumSz pre = sumSz pre3 + pv.size := by
          rw [hpre3]
          simp
        have hbspv : bs = pre3 ++ pv :: (B :: post) := by
          rw [hbs, hpre3]
          simp
        have hnepv : sumSz pre2 ≠ sumSz pre3 := by
          intro hT
          have hdec := decomp_eq hbs2 hbspv hpos hT
          rw [hdec.2.1, hpvu] at hcu
          simp at hcu
        rcases Nat.lt_or_ge (sumSz pre2) (sumSz pre3) with hlt2 | hge2
        · obtain ⟨w2, hw21, hw22⟩ := decomp_lt hbs2 hbspv hlt2
          have hS3 : sumSz pre3 = sumSz pre2 + C.size + sumSz w2 := by
            rw [hw21]
            simp
            omega
          rw [hback, if_pos hpvu]
          omega
        · have hlt3 : sumSz pre3 < sumSz pre2 := by omega
          obtain ⟨w2, hw21, hw22⟩ := decomp_lt hbspv hbs2 hlt3
          have hS3 : sumSz pre2 = sumSz pre3 + pv.size + sumSz w2 := by
            rw [hw21]
            simp
            omega
          omega
      · rw [hback, if_neg hpvu]
        omega
  · have hlt : sumSz pre < sumSz pre2 := by omega
    right
    obtain ⟨w, hw1, hw2⟩ := decomp_lt hbs hbs2 hlt
    have hT : sumSz pre2 = sumSz pre + B.size + sumSz w := by
      rw [hw1]
      simp
      omega
    cases w with
    | nil =>
      simp only [List.nil_append] at hw2
      have hF : fwdSize B post = B.size := by
        rw [hw2, fwdSize_cons, if_neg (by rw [hcu]; simp)]
      rw [hF]
      simp at hT
      rcases hx with ⟨hx1, hx2⟩ | ⟨hx1, hx2⟩
      · exact ⟨by omega, Or.inl (by omega)⟩
      · exact ⟨by omega, Or.inr (by omega)⟩
    | cons nx w2 =>
      simp only [List.cons_append] at hw2
      have hnx8 : 8 ≤ nx.size := h8 nx (by rw [hbs, hw2]; simp)
      have hT2 : sumSz pre2 = sumSz pre + B.size + nx.size + sumSz w2 := by
        rw [hT]
        simp
        omega
      by_cases hnxu : nx.used = false
      · have hF : fwdSize B post = B.size + nx.size := by
          rw [hw2, fwdSize_cons, if_pos hnxu]
        rw [hF]
        cases w2 with
        | nil =>
          simp at hT2
          rcases hx with ⟨hx1, hx2⟩ | ⟨hx1, hx2⟩
          · exact ⟨by omega, Or.inl (by omega)⟩
          · exact ⟨by omega, Or.inr (by omega)⟩
        | cons c2 w3 =>
          have hc8 : 8 ≤ c2.size := h8 c2 (by rw [hbs, hw2]; simp)
          have hw3 : 8 ≤ sumSz (c2 :: w3) := by
            simp
            omega
          rcases hx with ⟨hx1, hx2⟩ | ⟨hx1, hx2⟩
          · exact ⟨by omega, Or.inr (by omega)⟩
          · exact ⟨by omega, Or.inr (by omega)⟩
      · have hF : fwdSize B post = B.size := by
          rw [hw2, fwdSize_cons, if_neg hnxu]
        rw [hF]
        rcases hx with ⟨hx1, hx2⟩ | ⟨hx1, hx2⟩
        · exact ⟨by omega, Or.inr (by omega)⟩
        · exact ⟨by omega, Or.inr (by omega)⟩

/-- A bridge reporting every slot as 100 bytes of the byte 7, with
every read succeeding. -/
def br9 : Bridge := ⟨fun _ => some 100, fun _ _ => 7, fun _ _ _ => true⟩

/-- C9: mmap/munmap independence.  Two successful `mmap` calls on the
same open descriptor over a well-formed arena return distinct buffers
with disjoint address ranges; `munmap` of the first releases it
through the allocator's `free`, leaves every byte of the second buffer
unchanged, leaves the second buffer's block header word unchanged, and
that header still carries the used flag: the second buffer is still
allocated. -/
theorem C9_mmap_independence (br : Bridge) (fs : FdState) (h : Heap)
    (bs : List Blk) (hInv : Inv h bs) (fd : Int) (len1 len2 off1 off2 : Nat)
    (hl1 : len1 < U32 - 15) (hl2 : len2 < U32 - 15)
    (p1 p2 : Nat) (H1 H2 : Heap)
    (h1 : (mmap br fs h len1 fd off1).1 = some p1)
    (hH1 : H1 = (mmap br fs h len1 fd off1).2)
    (h2 : (mmap br fs H1 len2 fd off2).1 = some p2)
    (hH2 : H2 = (mmap br fs H1 len2 fd off2).2) :
    p1 ≠ p2 ∧
    (p1 + len1 ≤ p2 ∨ p2 + len2 ≤ p1) ∧
    munmap H2 p1 len1 = (0, free H2 p1) ∧
    (∀ x, p2 ≤ x → x < p2 + len2 → (free H2 p1).mem x = H2.mem x) ∧
    load32 (free H2 p1).mem (p2 - 8) = load32 H2.mem (p2 - 8) ∧
    load32 H2.mem (p2 - 8) % 2 = 1 := by
  have hU : U32 = 4294967296 := rfl
  obtain ⟨hm1, hH1eq⟩ := mmap_succ br fs h len1 fd off1 p1 h1
  have msp1 := malloc_spec h bs hInv len1 hl1
  obtain ⟨s1, b1, s2, hbs1, hb1u, hb1n, hp1, habs1, hframe1⟩ := msp1.2.2.2.2 p1 hm1
  have hInvM1 : Inv (malloc h len1).2 (mallocAbs len1 bs) := msp1.2.1
  have hst1 : (malloc h len1).2.heapStart = h.heapStart := msp1.2.2.1
  have hen1 : (malloc h len1).2.heapEnd = h.heapEnd := msp1.2.2.2.1
  obtain ⟨sz1, tl1, hnew1, hsz1ge, hsz1sum⟩ :=
    newBlks_facts (align_size len1) b1 hb1n
  obtain ⟨h16a, h8a, hge1⟩ := align_size_spec len1 hl1
  have hlen1le : len1 + 8 ≤ sz1 := by omega
  set B1 : Blk := (⟨sz1, true⟩ : Blk) with hB1def
  have hB1sz : B1.size = sz1 := rfl
  have hB1us : B1.used = true := rfl
  have habs1' : mallocAbs len1 bs = s1 ++ B1 :: (tl1 ++ s2) := by
    rw [habs1, hnew1]
    simp
  have hlen1pos : len1 ≠ 0 := by
    intro h0
    rw [h0] at hm1
    have hz : (malloc h 0).1 = none := by
      unfold malloc
      rw [if_pos (Or.inl rfl)]
    rw [hz] at hm1
    simp at hm1
  have hag1 : ∀ x, x < (malloc h len1).2.heapStart + sumSz s1 + 8 ∨
      (malloc h len1).2.heapStart + sumSz s1 + B1.size ≤ x →
      dataslotWrite br (malloc h len1).2.mem (-fd - 1).toNat off1 p1 len1 x =
        (malloc h len1).2.mem x := by
    intro x hx
    rw [hst1, hB1sz] at hx
    have hc : ¬(p1 ≤ x ∧ x < p1 + len1) := by omega
    unfold dataslotWrite
    rw [if_neg hc]
  have hInvH1 : Inv H1 (mallocAbs len1 bs) := by
    rw [hH1, hH1eq]
    exact Inv_payload_write (malloc h len1).2 (mallocAbs len1 bs) s1 B1
      (tl1 ++ s2) hInvM1 habs1' _ hag1
  have hH1st : H1.heapStart = h.heapStart := by
    rw [hH1, hH1eq]
    exact hst1
  have hH1en : H1.heapEnd = h.heapEnd := by
    rw [hH1, hH1eq]
    exact hen1
  obtain ⟨hm2, hH2eq⟩ := mmap_succ br fs H1 len2 fd off2 p2 h2
  have msp2 := malloc_spec H1 (mallocAbs len1 bs) hInvH1 len2 hl2
  obtain ⟨t1, c1, t2, habsd, hc1u, hc1n, hp2, habs2, hframe2⟩ := msp2.2.2.2.2 p2 hm2
  have hInvM2 : Inv (malloc H1 len2).2 (mallocAbs len2 (mallocAbs len1 bs)) :=
    msp2.2.1
  have hst2 : (malloc H1 len2).2.heapStart = H1.heapStart := msp2.2.2.1
  obtain ⟨sz2, tl2, hnew2, hsz2ge, hsz2sum⟩ :=
    newBlks_facts (align_size len2) c1 hc1n
  obtain ⟨h16b, h8b, hge2⟩ := align_size_spec len2 hl2
  have hlen2le : len2 + 8 ≤ sz2 := by omega
  set B2 : Blk := (⟨sz2, true⟩ : Blk) with hB2def
  have hB2sz : B2.size = sz2 := rfl
  have hB2us : B2.used = true := rfl
  have habs2' : mallocAbs len2 (mallocAbs len1 bs) = t1 ++ B2 :: (tl2 ++ t2) := by
    rw [habs2, hnew2]
    simp
  have hlen2pos : len2 ≠ 0 := by
    intro h0
    rw [h0] at hm2
    have hz : (malloc H1 0).1 = none := by
      unfold malloc
      rw [if_pos (Or.inl rfl)]
    rw [hz] at hm2
    simp at hm2
  have hp2' : p2 = h.heapStart + sumSz t1 + 8 := by
    rw [hp2, hH1st]
  have hag2 : ∀ x, x < (malloc H1 len2).2.heapStart + sumSz t1 + 8 ∨
      (malloc H1 len2).2.heapStart + sumSz t1 + B2.size ≤ x →
      dataslotWrite br (malloc H1 len2).2.mem (-fd - 1).toNat off2 p2 len2 x =
        (malloc H1 len2).2.mem x := by
    intro x hx
    rw [hst2, hH1st, hB2sz] at hx
    have hc : ¬(p2 ≤ x ∧ x < p2 + len2) := by omega
    unfold dataslotWrite
    rw [if_neg hc]
  have hInvH2 : Inv H2 (mallocAbs len2 (mallocAbs len1 bs)) := by
    rw [hH2, hH2eq]
    exact Inv_payload_write (malloc H1 len2).2 (mallocAbs len2 (mallocAbs len1 bs))
      t1 B2 (tl2 ++ t2) hInvM2 habs2' _ hag2
  have hH2st : H2.heapStart = h.heapStart := by
    rw [hH2, hH2eq]
    exact hst2.trans hH1st
  have hpos1 : ∀ b ∈ mallocAbs len1 bs, 0 < b.size := fun b hb =>
    (layoutSeg_sizes hInvH1.lay b hb).1
  have hSne : sumSz s1 ≠ sumSz t1 := by
    intro heq
    have hdec := decomp_eq habs1' habsd hpos1 heq
    have hBu := hB1us
    rw [hdec.2.1, hc1u] at hBu
    simp at hBu
  have hdisj : p1 + len1 ≤ p2 ∨ p2 + len2 ≤ p1 := by
    rcases Nat.lt_or_ge (sumSz s1) (sumSz t1) with hlt | hge
    · left
      obtain ⟨w, hw1, hw2⟩ := decomp_lt habs1' habsd hlt
      have hT : sumSz t1 = sumSz s1 + B1.size + sumSz w := by
        rw [hw1]
        simp
        omega
      rw [hB1sz] at hT
      omega
    · have hlt2 : sumSz t1 < sumSz s1 := by omega
      right
      obtain ⟨w, hw1, hw2⟩ := decomp_lt habsd habs1' hlt2
      have hS : sumSz s1 = sumSz t1 + c1.size + sumSz w := by
        rw [hw1]
        simp
        omega
      have hsz2le : sz2 ≤ c1.size := by omega
      omega
  have hne : p1 ≠ p2 := by
    rcases hdisj with hd | hd <;> omega
  have hs1mod : sumSz s1 % 8 = 0 :=
    sumSz_mod8 s1 (fun c hc =>
      (layoutSeg_sizes hInv.lay c (by rw [hbs1]; simp [hc])).2)
  have hpmod : p1 % 8 = 0 := by
    have := hInv.startAligned
    omega
  have hmapne : p1 ≠ MAP_FAILED := by
    have hm8 : MAP_FAILED % 8 = 7 := by decide
    omega
  have hmun : munmap H2 p1 len1 = (0, free H2 p1) := by
    unfold munmap
    rw [if_pos ⟨by omega, hmapne⟩]
  have hmid2 : sumSz (newBlks (align_size len2) c1) = c1.size := by
    rw [hnew2, sumSz_cons, hB2sz]
    omega
  obtain ⟨u2, v2, hu2eq, hu2sum⟩ := surgery_contains t1 c1 t2 s1 B1 (tl1 ++ s2)
    (newBlks (align_size len2) c1) (habsd.symm.trans habs1') hSne hmid2
  have habs2u : mallocAbs len2 (mallocAbs len1 bs) = u2 ++ B1 :: v2 :=
    habs2.trans hu2eq
  have hne2 : sumSz t1 ≠ sumSz u2 := by
    rw [hu2sum]
    exact fun hh => hSne hh.symm
  have hOF := free_other_frame H2 (mallocAbs len2 (mallocAbs len1 bs)) u2 B1 v2
    t1 B2 (tl2 ++ t2) hInvH2 habs2u hB1us habs2' hB2us hne2
  have hfreearg : H2.heapStart + sumSz u2 + 8 = p1 := by
    rw [hH2st, hu2sum]
    exact hp1.symm
  rw [hfreearg, hH2st, hB2sz] at hOF
  refine ⟨hne, hdisj, hmun, ?_, ?_, ?_⟩
  · intro x hx1 hx2
    exact hOF x (Or.inr ⟨by omega, by omega⟩)
  · refine load32_congr ?_
    intro y hy1 hy2
    exact hOF y (Or.inl ⟨by omega, by omega⟩)
  · have hhead := Inv_head_load H2 (mallocAbs len2 (mallocAbs len1 bs)) t1 B2
      (tl2 ++ t2) hInvH2 habs2'
    have hp28 : p2 - 8 = H2.heapStart + sumSz t1 := by
      rw [hH2st]
      omega
    rw [hp28, hhead]
    have hb2mod : B2.size % 8 = 0 :=
      (layoutSeg_sizes hInvH2.lay B2 (by rw [habs2']; simp)).2
    rw [storedOf_mod_two B2 hb2mod, hB2us]
    simp

theorem C9_witness :
    Inv c2heap [⟨16, true⟩, ⟨48, false⟩] ∧ (8 : Nat) < U32 - 15 ∧
    (mmap br9 fd0state c2heap 8 (-1) 0).1 = some 32 ∧
    (mmap br9 fd0state (mmap br9 fd0state c2heap 8 (-1) 0).2 8 (-1) 0).1 =
      some 48 ∧
    (32 : Nat) ≠ 48 ∧
    ((32 : Nat) + 8 ≤ 48 ∨ (48 : Nat) + 8 ≤ 32) ∧
    munmap (mmap br9 fd0state (mmap br9 fd0state c2heap 8 (-1) 0).2 8 (-1) 0).2
        32 8 =
      (0, free (mmap br9 fd0state
        (mmap br9 fd0state c2heap 8 (-1) 0).2 8 (-1) 0).2 32) ∧
    (∀ x, 48 ≤ x → x < 48 + 8 →
      (free (mmap br9 fd0state
        (mmap br9 fd0state c2heap 8 (-1) 0).2 8 (-1) 0).2 32).mem x =
      (mmap br9 fd0state
        (mmap br9 fd0state c2heap 8 (-1) 0).2 8 (-1) 0).2.mem x) ∧
    load32 (free (mmap br9 fd0state
        (mmap br9 fd0state c2heap 8 (-1) 0).2 8 (-1) 0).2 32).mem (48 - 8) =
      load32 (mmap br9 fd0state
        (mmap br9 fd0state c2heap 8 (-1) 0).2 8 (-1) 0).2.mem (48 - 8) ∧
    load32 (mmap br9 fd0state
        (mmap br9 fd0state c2heap 8 (-1) 0).2 8 (-1) 0).2.mem (48 - 8) % 2
      = 1 := by
  have hinv : Inv c2heap [⟨16, true⟩, ⟨48, false⟩] :=
    ⟨by decide, by decide, by decide, by decide, by decide, by decide⟩
  have hmain := C9_mmap_independence br9 fd0state c2heap [⟨16, true⟩, ⟨48, false⟩]
    hinv (-1) 8 8 0 0 (by decide) (by decide) 32 48
    (mmap br9 fd0state c2heap 8 (-1) 0).2
    (mmap br9 fd0state (mmap br9 fd0state c2heap 8 (-1) 0).2 8 (-1) 0).2
    (by decide) rfl (by decide) rfl
  exact ⟨hinv, by decide, by decide, by decide, hmain.1, hmain.2.1, hmain.2.2.1,
    hmain.2.2.2.1, hmain.2.2.2.2.1, hmain.2.2.2.2.2⟩

end PL2

